import Mathlib

/-!
Verification of the Palantir core pipeline (`src/palantir/core.py`).

The Python source is shallowly embedded: matrices become functions
`Fin n → Fin n → ℚ`, pandas indexes become lists of natural-number labels,
and the numpy/scipy routines the code calls are translated operation by
operation.  Machine floats are modelled by exact rationals; the places where
the float model matters (an exact `==` test, a `sqrt`-monotone comparison)
are noted at the definition concerned.
-/

namespace Palantir

/-! ## Generic list helpers used by the pruning rule of
`_construct_phenotypic_markov_chain` (core.py lines 364-398). -/

/-- Length of the shortest nonempty prefix of `ws` whose sum reaches `diff`
(the whole length when even the full sum stays below `diff`).  This is the
quantity `retain_inds[0] + 1` of core.py line 384, where
`retain_inds = np.where(np.cumsum(w[test_edges]) >= diff)[0]`: with the
strictly positive weights produced by `find`, the cumulative sums are
strictly increasing, so `retain_inds` is the contiguous range starting at the
first index whose cumulative sum reaches `diff`. -/
def cutLen : List ℚ → ℚ → ℕ
  | [], _ => 0
  | w :: ws, diff => if diff ≤ w then 1 else cutLen ws (diff - w) + 1

/-- Per-waypoint backward-edge retention rule of core.py lines 377-388,
applied to an ascending-sorted edge list `es` whose probability weight is
`wt`.  `back_prob = np.sum(w[test_edges])` is `B`; the float test
`back_prob == 1` is the exact rational test here (exact in this embedding
because a row whose edges are all backward has backward mass exactly 1).
When `B ≠ 1`, `retain_inds` has `length - cutLen + 1` elements, so the guard
`len(retain_inds) <= 1` of line 385 is `length ≤ cutLen`, and line 388
retains `test_edges[retain_inds[1]:]`, i.e. drops the first `cutLen`
edges. -/
def retainSorted {α : Type} (wt : α → ℚ) (es : List α) : List α :=
  if (es.map wt).sum = 1 then es
  else
    if cutLen (es.map wt) ((es.map wt).sum - (1 - (es.map wt).sum)) < es.length then
      es.drop (cutLen (es.map wt) ((es.map wt).sum - (1 - (es.map wt).sum)))
    else []

/-- Backward-edge pruning for one source waypoint, at the level of its list
of backward probability weights: sort ascending (`np.argsort(w[test_edges])`,
line 374) and apply the retention rule of lines 377-388. -/
def pruneBackwardWeights (ws : List ℚ) : List ℚ :=
  retainSorted id (ws.insertionSort (· ≤ ·))

/-- Modelled from the spec: length of the smallest (possibly empty) prefix
whose cumulative sum reaches `diff`; the empty prefix has sum `0`, so this is
`0` whenever `diff ≤ 0`.  This is the prefix length described by the claim's
words "find the smallest prefix (in ascending-weight order) whose cumulative
sum reaches `diff`". -/
def specCutLen : List ℚ → ℚ → ℕ
  | [], _ => 0
  | w :: ws, diff => if diff ≤ 0 then 0 else specCutLen ws (diff - w) + 1

/-- Modelled from the spec: the backward-edge retention rule exactly as the
claim states it — drop the smallest prefix (ascending order) whose cumulative
sum reaches `diff = B - (1 - B)`, retain the remaining higher-weight edges,
"but retain nothing if fewer than 2 edges survive the prefix cut". -/
def pruneBackwardWeightsSpec (ws : List ℚ) : List ℚ :=
  let sq := ws.insertionSort (· ≤ ·)
  if sq.sum = 1 then sq
  else
    let surv := sq.drop (specCutLen sq (sq.sum - (1 - sq.sum)))
    if surv.length < 2 then [] else surv

/-! ## Transition-matrix normalization (`_normalize_transition_matrix`,
core.py lines 339-345). -/

/-- Square rational matrix over `n` states, the embedding of the csr
matrices of core.py.  An absent sparse entry is the value `0`. -/
abbrev TMat (n : ℕ) := Fin n → Fin n → ℚ

/-- Sum of row `i`: `D = np.ravel(M.sum(axis=1))` of core.py line 342. -/
def rowSum {n : ℕ} (T : TMat n) (i : Fin n) : ℚ := ∑ j, T i j

/-- Embedding of `_normalize_transition_matrix` (core.py lines 339-345):
every stored entry `z` of row `x` becomes `z / D[x]`.  A row with zero total
has no stored entries (`find` returns only nonzeros and affinities are
nonnegative), so it passes through unchanged as a zero row; in ℚ the
convention `z / 0 = 0` gives the same matrix.  No error path exists in the
source. -/
def normalizeTransitionMatrix {n : ℕ} (T : TMat n) : TMat n :=
  fun i j => T i j / rowSum T i

/-- Concrete input for the normalization routine whose second row has zero
total affinity (an isolated node). -/
def zeroRowMatrix : TMat 2 := ![![1, 1], ![0, 0]]

/-! ## Waypoint sequence assembly (`run_palantir` lines 65-75,
`identify_terminal_states` lines 162-169). -/

/-- Deduplication keeping the first occurrence of every element, the
behaviour of `pandas.Index.unique`. -/
def uniqueKeepFirst {α : Type} [DecidableEq α] : List α → List α
  | [] => []
  | x :: xs => x :: uniqueKeepFirst (xs.filter (fun y => decide (y ≠ x)))
termination_by l => l.length
decreasing_by
  simp only [List.length_cons]
  exact Nat.lt_succ_of_le (List.length_filter_le _ _)

/-- Ascending sort of a label list: `pandas.Index` set operations return
their result sorted. -/
def idxSort (l : List ℕ) : List ℕ := l.insertionSort (· ≤ ·)

/-- Embedding of `pandas.Index.union` (core.py lines 69-71): sorted union
with duplicates removed. -/
def idxUnion (a b : List ℕ) : List ℕ := idxSort (uniqueKeepFirst (a ++ b))

/-- Embedding of `pandas.Index.difference` (core.py line 72): the sorted,
deduplicated elements of `a` that are not in `b`. -/
def idxDifference (a b : List ℕ) : List ℕ :=
  idxSort (uniqueKeepFirst (a.filter (fun x => decide (x ∉ b))))

/-- Waypoint sequence of `run_palantir` (lines 65-75) and
`identify_terminal_states` (lines 162-169): union the sampled waypoints with
the boundary cells (and the user terminal states when given, the
`run_palantir` path), remove the start cell, deduplicate (`.unique()`), then
prepend the start cell. -/
def waypointSeq (sampled boundaries : List ℕ) (terminals : Option (List ℕ))
    (startCell : ℕ) : List ℕ :=
  let w1 := idxUnion sampled boundaries
  let w2 := match terminals with
    | some ts => idxUnion w1 ts
    | none => w1
  let w3 := uniqueKeepFirst (idxDifference w2 [startCell])
  startCell :: w3

/-! ## Waypoint sampling (`_max_min_sampling`, core.py lines 187-229). -/

/-- First index attaining the maximum of `f` over `l`, the behaviour of
`np.where(min_dists == min_dists.max())[0][0]` (core.py line 217): a strictly
larger value replaces the incumbent, so ties keep the earliest index. -/
def argmaxFirst {n : ℕ} (f : Fin n → ℚ) (l : List (Fin n)) : Option (Fin n) :=
  l.foldl (fun acc x => match acc with
    | none => some x
    | some b => if f b < f x then some x else acc) none

/-- Minimum distance from point `j` to the chosen set along one component:
`dists[:, 0:k].min(axis=1)` of core.py line 214, where column `t` of `dists`
holds `abs(vec - vec[iter_set[t]])`. -/
def minDistTo {N : ℕ} (vec : Fin N → ℚ) (chosen : List (Fin N)) (j : Fin N) : ℚ :=
  match chosen with
  | [] => 0
  | c :: cs => (cs.map (fun c2 => |vec j - vec c2|)).foldl min |vec j - vec c|

/-- Greedy farthest-point steps of core.py lines 212-221: `k` times, append
the first index maximizing the minimum distance to the current set. -/
def maxMinExtend {N : ℕ} (vec : Fin N → ℚ) : ℕ → List (Fin N) → List (Fin N)
  | 0, chosen => chosen
  | k + 1, chosen =>
    match argmaxFirst (fun j => minDistTo vec chosen j) (List.finRange N) with
    | some w => maxMinExtend vec k (chosen ++ [w])
    | none => chosen

/-- Per-column sampling (core.py lines 202-221): the random initial index
(`random.sample(range(N), 1)`, supplied here as `init`) followed by
`no_iterations - 1` greedy steps, giving `no_iterations` indices. -/
def maxMinColumn {N : ℕ} (vec : Fin N → ℚ) (init : Fin N) (steps : ℕ) :
    List (Fin N) :=
  maxMinExtend vec (steps - 1) [init]

/-- Embedding of `_max_min_sampling` (core.py lines 187-229).  `index` is
`data.index` (row labels, not necessarily injective), `init` the per-column
random initialization.  The error paths return `none`:
`no_iterations = int(num_waypoints / data.shape[1])` raises
ZeroDivisionError when the data has no columns, and when it truncates to `0`
the assignment `dists[:, 0] = ...` (line 211) indexes a `[N, 0]` array and
raises IndexError.  Otherwise the per-column index lists are concatenated
(line 224) and mapped through the labels with `.unique()` (line 227). -/
def maxMinSampling {N c : ℕ} (data : Fin N → Fin c → ℚ) (index : Fin N → ℕ)
    (numWaypoints : ℕ) (init : Fin c → Fin N) : Option (List ℕ) :=
  if c = 0 then none
  else if numWaypoints / c = 0 then none
  else some (uniqueKeepFirst ((((List.finRange c).map
    (fun col => maxMinColumn (fun i => data i col) (init col)
      (numWaypoints / c))).flatten).map index))

/-! ## Absorption probabilities (`_compute_absorption_probabilities`,
core.py lines 483-510) and the branch-probability assembly of
`_differentiation_entropy` (lines 513-556). -/

/-- In-place reset of the absorbing-state rows performed at core.py lines
488-490: `T[abs_states, :] = 0` zeroes every absorbing row, then
`T[abs_states, abs_states] = 1` writes the diagonal pairs, leaving each
absorbing row a unit self-loop.  The csr argument itself is mutated, so this
matrix is also the caller-visible state of the argument after the call (the
re-normalized matrix of line 491 rebinds the local name only). -/
def absorbMutate {n : ℕ} (T : TMat n) (absS : Finset (Fin n)) : TMat n :=
  fun i j => if i ∈ absS then (if j = i then 1 else 0) else T i j

/-- Transient state indices in ascending order:
`trans_states = list(set(range(N)).difference(abs_states))` (line 498). -/
def transList {n : ℕ} (absS : Finset (Fin n)) : List (Fin n) :=
  (List.finRange n).filter (fun j => decide (j ∉ absS))

/-- Absorbing state indices in ascending order:
`abs_states = np.where(waypoints.isin(terminal_states))[0]` (line 532). -/
def absList {n : ℕ} (absS : Finset (Fin n)) : List (Fin n) :=
  (List.finRange n).filter (fun j => decide (j ∈ absS))

/-- Matrix after the absorbing-row reset and the re-normalization of core.py
line 491. -/
def Tabsorb {n : ℕ} (T : TMat n) (absS : Finset (Fin n)) : TMat n :=
  normalizeTransitionMatrix (absorbMutate T absS)

/-- Transient-to-transient block `Q = T[trans_states, :][:, trans_states]`
(core.py line 501). -/
def Qmat {n : ℕ} (T : TMat n) (absS : Finset (Fin n)) :
    Matrix (Fin (transList absS).length) (Fin (transList absS).length) ℚ :=
  Matrix.of fun p q => Tabsorb T absS ((transList absS).get p) ((transList absS).get q)

/-- Transient-to-absorbing block `T[trans_states, :][:, abs_states]`
(core.py line 507). -/
def Rmat {n : ℕ} (T : TMat n) (absS : Finset (Fin n)) :
    Matrix (Fin (transList absS).length) (Fin (absList absS).length) ℚ :=
  Matrix.of fun p q => Tabsorb T absS ((transList absS).get p) ((absList absS).get q)

/-- Absorption probabilities `probs = np.dot(N, R)` with the negative-entry
clamp `probs[probs < 0] = 0` (core.py lines 507-508).  The fundamental
matrix `N = inv(np.eye - Q)` is an external `numpy.linalg.inv` call, modelled
by the argument `Nmat`; theorems about this definition take the library
contract `Nmat * (1 - Q) = 1` as a hypothesis (`numpy.linalg.inv` raises
instead when `I - Q` is singular). -/
def absorptionProbs {n : ℕ} (T : TMat n) (absS : Finset (Fin n))
    (Nmat : Matrix (Fin (transList absS).length) (Fin (transList absS).length) ℚ) :
    Matrix (Fin (transList absS).length) (Fin (absList absS).length) ℚ :=
  Matrix.of fun p q => max ((Nmat * Rmat T absS) p q) 0

/-- Embedding of `_compute_absorption_probabilities` (core.py lines
483-510): the returned probabilities paired with the caller-visible final
state of the mutated csr argument. -/
def computeAbsorptionProbabilities {n : ℕ} (T : TMat n) (absS : Finset (Fin n))
    (Nmat : Matrix (Fin (transList absS).length) (Fin (transList absS).length) ℚ) :
    Matrix (Fin (transList absS).length) (Fin (absList absS).length) ℚ × TMat n :=
  (absorptionProbs T absS Nmat, absorbMutate T absS)

/-- One step of the sink creation at core.py lines 535-537: for absorbing
state `s`, every column `j` with `T[s, j] > 0` (a neighbour of `s`) gets
`T[j, s] = 0.5`.  The row of `s` is read from the current matrix, so the
fold below is order-sensitive exactly like the Python loop. -/
def sinkUpdate {n : ℕ} (M : TMat n) (s : Fin n) : TMat n :=
  fun i j => if j = s ∧ 0 < M s i then 1/2 else M i j

/-- The `for s in abs_states` sink loop of core.py lines 535-537, in the
ascending order produced by `np.where`. -/
def addTerminalSinks {n : ℕ} (T : TMat n) (absS : Finset (Fin n)) : TMat n :=
  (absList absS).foldl sinkUpdate T

/-- Position of a transient state inside `transList`, used to address its
row of the absorption-probability matrix. -/
def transIdx {n : ℕ} (absS : Finset (Fin n)) (i : Fin n) (hi : i ∉ absS) :
    Fin (transList absS).length :=
  ⟨(transList absS).indexOf i,
    List.indexOf_lt_length.2 (by simp [transList, List.mem_filter, hi])⟩

/-- Waypoint-level branch-probability matrix assembled by
`_differentiation_entropy` (core.py lines 535-554): sink creation, then
absorption probabilities for the transient waypoints, then the appended
identity rows `bp` for the terminal states themselves (lines 552-554). -/
def branchProbsFinal {n : ℕ} (T : TMat n) (absS : Finset (Fin n))
    (Nmat : Matrix (Fin (transList absS).length) (Fin (transList absS).length) ℚ) :
    Fin n → Fin (absList absS).length → ℚ :=
  fun i q =>
    if hi : i ∈ absS then (if (absList absS).get q = i then 1 else 0)
    else absorptionProbs (addTerminalSinks T absS) absS Nmat (transIdx absS i hi) q

/-- Entropy vector assembled at core.py lines 548-551: Shannon entropy of
each transient branch-probability row (the external `scipy.stats.entropy`,
taken as the argument `H`), with `ent.append(pd.Series(0, index=terminal_states))`
assigning 0 to every terminal state. -/
def entropyFinal {n : ℕ} (T : TMat n) (absS : Finset (Fin n))
    (Nmat : Matrix (Fin (transList absS).length) (Fin (transList absS).length) ℚ)
    (H : (Fin (absList absS).length → ℚ) → ℚ) : Fin n → ℚ :=
  fun i => if i ∈ absS then 0 else H (fun q => branchProbsFinal T absS Nmat i q)

/-- Concrete transition matrix for the absorption-assembly witness: two
waypoints with uniform transitions. -/
def absWitnessT : TMat 2 := ![![1/2, 1/2], ![1/2, 1/2]]

/-- Concrete terminal set for the absorption-assembly witness: waypoint 1. -/
def absWitnessS : Finset (Fin 2) := {1}

/-- Concrete fundamental matrix `inv(I - Q)` for the witness: `Q = [[1/2]]`,
so the inverse is `[[2]]`. -/
def absWitnessN : Matrix (Fin (transList absWitnessS).length)
    (Fin (transList absWitnessS).length) ℚ :=
  Matrix.of fun _ _ => 2

/-! ## Trajectory refinement loop (`_compute_trajectory`, core.py lines
280-311). -/

/-- Arithmetic mean of a rational vector. -/
def vecMean {c : ℕ} (x : Fin c → ℚ) : ℚ := (∑ j, x j) / c

/-- Centered cross sum `Σ (x_j - mean x)(y_j - mean y)`, the numerator of
the Pearson correlation up to the common `1/(c-1)` factor. -/
def covSum {c : ℕ} (x y : Fin c → ℚ) : ℚ :=
  ∑ j, (x j - vecMean x) * (y j - vecMean y)

/-- Exact rational characterization of the float test
`pearsonr(trajectory, new_traj)[0] > 0.9999` of core.py lines 302-304: with
`r = cov / sqrt(vx vy)` and threshold `θ = 9999/10000 > 0`,
`r > θ ⟺ cov > 0 ∧ θ² vx vy < cov²` (a monotone, sqrt-free restatement).  A
constant vector gives `cov = 0` and the predicate is false, matching scipy's
NaN comparing false. -/
def corrExceeds {c : ℕ} (x y : Fin c → ℚ) : Prop :=
  0 < covSum x y ∧
    (9999 / 10000 : ℚ) ^ 2 * (covSum x x * covSum y y) < covSum x y ^ 2

instance {c : ℕ} (x y : Fin c → ℚ) : Decidable (corrExceeds x y) :=
  instDecidableAnd

/-- Perspective row of waypoint `wp` (core.py lines 286-296): rows other
than the start waypoint (index 0) negate the distance entries of cells whose
current trajectory value is strictly behind `wp`'s and shift the row by
`wp`'s current trajectory value; the start row stays `D`'s row.  `wpCell`
maps each waypoint to its cell column (`trajectory[wp]`). -/
def perspectiveRow {m c : ℕ} (D : Fin (m + 1) → Fin c → ℚ)
    (wpCell : Fin (m + 1) → Fin c) (traj : Fin c → ℚ) (wp : Fin (m + 1)) :
    Fin c → ℚ :=
  fun cell =>
    if wp = 0 then D wp cell
    else (if traj cell < traj (wpCell wp) then -(D wp cell) else D wp cell) +
      traj (wpCell wp)

/-- One refinement pass, `new_traj = P.multiply(W).sum()` (core.py line
299): per cell, the waypoint-weighted sum of the perspective rows. -/
def trajStep {m c : ℕ} (D W : Fin (m + 1) → Fin c → ℚ)
    (wpCell : Fin (m + 1) → Fin c) (traj : Fin c → ℚ) : Fin c → ℚ :=
  fun cell => ∑ wp, perspectiveRow D wpCell traj wp cell * W wp cell

/-- The `while not converged and iteration < max_iterations` loop of core.py
lines 283-309, with the remaining iteration budget as fuel.  Returns the
final trajectory (the freshly adopted `new_traj`, line 308), the number of
refinement passes performed, and whether the correlation test triggered. -/
def trajGo {m c : ℕ} (D W : Fin (m + 1) → Fin c → ℚ)
    (wpCell : Fin (m + 1) → Fin c) : ℕ → (Fin c → ℚ) → (Fin c → ℚ) × ℕ × Bool
  | 0, traj => (traj, 0, false)
  | fuel + 1, traj =>
    let newT := trajStep D W wpCell traj
    if corrExceeds traj newT then (newT, 1, true)
    else
      let r := trajGo D W wpCell fuel newT
      (r.1, r.2.1 + 1, r.2.2)

/-- Embedding of the refinement loop of `_compute_trajectory` (core.py lines
278-311): the iteration counter starts at 1 and the loop runs while
`iteration < max_iterations`, so the budget is `max_iterations - 1` passes;
the trajectory is initialized to the start cell's distance row
(`D.loc[start_cell, :]`, line 279, the waypoint of index 0). -/
def computeTrajectoryLoop {m c : ℕ} (D W : Fin (m + 1) → Fin c → ℚ)
    (wpCell : Fin (m + 1) → Fin c) (maxIterations : ℕ) :
    (Fin c → ℚ) × ℕ × Bool :=
  trajGo D W wpCell (maxIterations - 1) (fun cell => D 0 cell)

/-- Trajectory after `k` refinement passes from the start row. -/
def trajSeq {m c : ℕ} (D W : Fin (m + 1) → Fin c → ℚ)
    (wpCell : Fin (m + 1) → Fin c) (k : ℕ) : Fin c → ℚ :=
  (trajStep D W wpCell)^[k] (fun cell => D 0 cell)

/-- Concrete caller argument for the absorption routine: the all-ones 2×2
matrix. -/
def onesMatrix2 : TMat 2 := fun _ _ => 1

/-! ## Directed Markov chain construction
(`_construct_phenotypic_markov_chain`, core.py lines 348-398), pruning and
re-normalization stage.  The pre-pruning transition matrix `T` (line 361)
and the waypoint trajectory values are the inputs. -/

/-- Total order on a row's backward-edge columns: ascending probability
weight, ties broken by column index.  This realizes
`np.argsort(w[test_edges])` (core.py line 374); numpy's introsort is not
stable, so any tie order is a faithful model, and the properties proved
below do not depend on the tie order. -/
def edgeLE {n : ℕ} (T : TMat n) (i : Fin n) (a b : Fin n) : Prop :=
  T i a < T i b ∨ (T i a = T i b ∧ a ≤ b)

instance {n : ℕ} (T : TMat n) (i : Fin n) : DecidableRel (edgeLE T i) :=
  fun a b => by
    unfold edgeLE
    infer_instance

/-- Backward-edge columns of row `i`: stored entries (`find` returns the
nonzeros, line 365) whose target is strictly earlier in trajectory
(`trajectory[x] > trajectory[y]`, line 369). -/
def backwardCols {n : ℕ} (T : TMat n) (traj : Fin n → ℚ) (i : Fin n) :
    List (Fin n) :=
  (List.finRange n).filter (fun j => decide (T i j ≠ 0 ∧ traj j < traj i))

/-- Backward-edge columns of row `i` in ascending weight order
(`test_edges[np.argsort(w[test_edges])]`, line 374). -/
def sortedBackwardCols {n : ℕ} (T : TMat n) (traj : Fin n → ℚ) (i : Fin n) :
    List (Fin n) :=
  (backwardCols T traj i).insertionSort (edgeLE T i)

/-- Backward edges retained for row `i` by the rule of lines 377-388. -/
def retainedBackwardCols {n : ℕ} (T : TMat n) (traj : Fin n → ℚ) (i : Fin n) :
    List (Fin n) :=
  retainSorted (T i) (sortedBackwardCols T traj i)

/-- The matrix of retained edges (`retained_edges`, lines 367-391): forward
edges (`trajectory[x] <= trajectory[y]`, line 366) are all kept, backward
edges only when retained by the per-waypoint rule. -/
def pruneBackwardEdges {n : ℕ} (T : TMat n) (traj : Fin n → ℚ) : TMat n :=
  fun i j =>
    if traj i ≤ traj j then T i j
    else if j ∈ retainedBackwardCols T traj i then T i j else 0

/-- Pruning followed by the re-normalization of line 398: the transition
matrix `_construct_phenotypic_markov_chain` returns, as a function of the
pre-pruning transition matrix and the trajectory. -/
def constructChain {n : ℕ} (T : TMat n) (traj : Fin n → ℚ) : TMat n :=
  normalizeTransitionMatrix (pruneBackwardEdges T traj)

/-- Total probability mass of row `i` on forward edges (targets at or after
`i` in trajectory). -/
def forwardMass {n : ℕ} (M : TMat n) (traj : Fin n → ℚ) (i : Fin n) : ℚ :=
  ∑ j, if traj i ≤ traj j then M i j else 0

/-- Total probability mass of row `i` on backward edges (targets strictly
before `i` in trajectory). -/
def backwardMass {n : ℕ} (M : TMat n) (traj : Fin n → ℚ) (i : Fin n) : ℚ :=
  ∑ j, if traj j < traj i then M i j else 0

/-- Concrete pre-pruning transition matrix for the witness: 3 waypoints in
trajectory order `0, 1, 2`. -/
def chainWitnessT : TMat 3 := ![![0, 1/2, 1/2], ![1/4, 1/4, 1/2], ![1/3, 1/3, 1/3]]

/-- Concrete trajectory values for the witness. -/
def chainWitnessTraj : Fin 3 → ℚ := ![0, 1, 2]

/-! ## Graph connectivity repair (`_connect_graph`, core.py lines 568-605). -/

/-- Weight of the undirected edge between `i` and `j` as traversed by
`scipy.sparse.csgraph.dijkstra(adj, directed=False, ...)`: either stored
direction may be used, at the cheaper of the stored weights; `⊤` when
neither direction is stored.  A stored csr entry is a nonzero value in this
embedding. -/
def edgeWeight {n : ℕ} (adj : TMat n) (i j : Fin n) : WithTop ℚ :=
  if adj i j ≠ 0 ∧ adj j i ≠ 0 then ((min (adj i j) (adj j i) : ℚ) : WithTop ℚ)
  else if adj i j ≠ 0 then (adj i j : WithTop ℚ)
  else if adj j i ≠ 0 then (adj j i : WithTop ℚ)
  else ⊤

/-- One round of shortest-path relaxation over all edges. -/
def relaxStep {n : ℕ} (adj : TMat n) (d : Fin n → WithTop ℚ) :
    Fin n → WithTop ℚ :=
  fun j => min (d j) (Finset.univ.inf fun i => d i + edgeWeight adj i j)

/-- Single-source shortest-path distances of
`csgraph.dijkstra(adj, False, start_cell)` (core.py lines 573 and 598):
`n` relaxation rounds from the source compute the same distance values as
Dijkstra on the undirected nonnegative graph, since shortest paths use at
most `n - 1` edges. -/
def spDist {n : ℕ} (adj : TMat n) (s : Fin n) : Fin n → WithTop ℚ :=
  (relaxStep adj)^[n] (fun j => if j = s then 0 else ⊤)

/-- Unreachable nodes: infinite dijkstra distance (the complement of
`reacheable = np.where(~np.isinf(dists))[0]`, core.py line 574). -/
def unreachSet {n : ℕ} (adj : TMat n) (s : Fin n) : Finset (Fin n) :=
  Finset.univ.filter (fun j => spDist adj s j = ⊤)

/-- Reachable nodes in `data.index` order (the pandas Series `dists` of
core.py line 575). -/
def reachList {n : ℕ} (adj : TMat n) (s : Fin n) : List (Fin n) :=
  (List.finRange n).filter (fun j => decide (spDist adj s j ≠ ⊤))

/-- Unreachable nodes in `data.index` order (`unreachable_nodes`, core.py
line 578). -/
def unreachList {n : ℕ} (adj : TMat n) (s : Fin n) : List (Fin n) :=
  (List.finRange n).filter (fun j => decide (spDist adj s j = ⊤))

/-- First index attaining the maximum of `f` over `l` (`Series.idxmax`,
first occurrence on ties), for values in any linear order. -/
def argmaxList {n : ℕ} {β : Type} [LinearOrder β] (f : Fin n → β)
    (l : List (Fin n)) : Option (Fin n) :=
  l.foldl (fun acc x => match acc with
    | none => some x
    | some b => if f b < f x then some x else acc) none

/-- First index attaining the minimum of `f` over `l` (`Series.idxmin`,
first occurrence on ties). -/
def argminList {n : ℕ} {β : Type} [LinearOrder β] (f : Fin n → β)
    (l : List (Fin n)) : Option (Fin n) :=
  l.foldl (fun acc x => match acc with
    | none => some x
    | some b => if f x < f b then some x else acc) none

/-- The csr assignment `adj[farthest_reachable, add_edge] = ...` of core.py
line 595. -/
def updateAdj {n : ℕ} (adj : TMat n) (i0 j0 : Fin n) (v : ℚ) : TMat n :=
  fun i j => if i = i0 ∧ j = j0 then v else adj i j

/-- The repair loop of `_connect_graph` (core.py lines 584-604), with the
remaining iteration budget as fuel: while some node is unreachable, connect
the farthest currently-reachable node (`dists.idxmax()`, line 586) to its
nearest currently-unreachable node (`unreachable_dists.idxmin()`, line 594)
by a new edge weighted with their distance in the embedding, then recompute
the dijkstra distances.  `dist` abstracts the external
`sklearn.metrics.pairwise_distances` on the caller's data matrix (the
Euclidean distance between embedding rows). -/
def connectLoop {n : ℕ} (dist : Fin n → Fin n → ℚ) (s : Fin n) :
    ℕ → TMat n → TMat n
  | 0, adj => adj
  | fuel + 1, adj =>
    if unreachSet adj s = ∅ then adj
    else
      match argmaxList (spDist adj s) (reachList adj s) with
      | none => adj
      | some far =>
        match argminList (dist far) (unreachList adj s) with
        | none => adj
        | some near =>
          connectLoop dist s fuel (updateAdj adj far near (dist far near))

/-- Embedding of `_connect_graph` (core.py lines 568-605): each loop
iteration makes at least one more node reachable, so `n` rounds of fuel
always suffice. -/
def connectGraph {n : ℕ} (adj : TMat n) (dist : Fin n → Fin n → ℚ)
    (s : Fin n) : TMat n :=
  connectLoop dist s n adj

/-- One breadth-first expansion of a node set along the undirected edges of
`adj`; the finiteness pattern of one relaxation round. -/
def bfsStep {n : ℕ} (adj : TMat n) (S : Finset (Fin n)) : Finset (Fin n) :=
  S ∪ Finset.univ.filter (fun j => ∃ i ∈ S, edgeWeight adj i j ≠ ⊤)

/-- Concrete disconnected adjacency for the repair witness: no edges at
all over two nodes. -/
def graphWitnessAdj : TMat 2 := fun _ _ => 0

/-- Concrete embedding distances for the repair witness: unit distance
between any two rows. -/
def graphWitnessDist : Fin 2 → Fin 2 → ℚ := fun _ _ => 1

-- ===================================================================
-- Theorems
-- ===================================================================

theorem cutLen_le_length (ws : List ℚ) (d : ℚ) : cutLen ws d ≤ ws.length := by
  induction ws generalizing d with
  | nil => simp [cutLen]
  | cons w t ih =>
    simp only [cutLen, List.length_cons]
    split
    · omega
    · exact Nat.succ_le_succ (ih _)

theorem one_le_cutLen (w : ℚ) (t : List ℚ) (d : ℚ) : 1 ≤ cutLen (w :: t) d := by
  simp only [cutLen]
  split <;> omega

theorem take_cutLen_sum_ge (ws : List ℚ) (d : ℚ) (h : cutLen ws d < ws.length) :
    d ≤ (ws.take (cutLen ws d)).sum := by
  induction ws generalizing d with
  | nil => simp at h
  | cons w t ih =>
    by_cases hd : d ≤ w
    · simp [cutLen, hd]
    · have h' : cutLen t (d - w) < t.length := by
        simp only [cutLen, if_neg hd, List.length_cons] at h
        omega
      have ht := ih (d - w) h'
      simp only [cutLen, if_neg hd, List.take_succ_cons, List.sum_cons]
      linarith

theorem take_sum_lt_of_lt_cutLen (ws : List ℚ) (d : ℚ) (q : ℕ)
    (h1 : 1 ≤ q) (h2 : q < cutLen ws d) : (ws.take q).sum < d := by
  induction ws generalizing d q with
  | nil => simp [cutLen] at h2
  | cons w t ih =>
    by_cases hd : d ≤ w
    · simp [cutLen, hd] at h2
      omega
    · push_neg at hd
      simp only [cutLen, if_neg (not_le.2 hd)] at h2
      rcases Nat.lt_or_ge q 2 with hq | hq
      · have : q = 1 := by omega
        subst this
        simpa using hd
      · obtain ⟨q', rfl⟩ : ∃ q', q = q' + 1 := ⟨q - 1, by omega⟩
        have := ih (d - w) q' (by omega) (by omega)
        simp only [List.take_succ_cons, List.sum_cons]
        linarith

/-- C1 counterexample.  For backward weights `[1/10, 1/5]` (total backward
mass `B = 3/10`, so `diff = -2/5 ≤ 0`), the claim's rule drops the smallest
prefix reaching `diff` — the empty prefix — and retains both edges, while
the code always drops at least the lightest backward edge
(`retain_inds[0] = 0` is removed by the slice `test_edges[retain_inds[1]:]`
of core.py line 388) and retains only `[1/5]`. -/
theorem backward_pruning_claim_refuted :
    pruneBackwardWeights [1/10, 1/5] = [1/5] ∧
    pruneBackwardWeightsSpec [1/10, 1/5] = [1/10, 1/5] ∧
    pruneBackwardWeights [1/10, 1/5] ≠ pruneBackwardWeightsSpec [1/10, 1/5] := by
  have hsort : ([1/10, 1/5] : List ℚ).insertionSort (· ≤ ·) = [1/10, 1/5] := by
    norm_num [List.insertionSort, List.orderedInsert]
  have h1 : pruneBackwardWeights [1/10, 1/5] = [1/5] := by
    rw [pruneBackwardWeights, hsort]
    norm_num [retainSorted, cutLen]
  have h2 : pruneBackwardWeightsSpec [1/10, 1/5] = [1/10, 1/5] := by
    rw [pruneBackwardWeightsSpec, hsort]
    norm_num [specCutLen]
  refine ⟨h1, h2, ?_⟩
  rw [h1, h2]
  intro h
  exact absurd (congrArg List.length h) (by simp)

theorem retainSorted_id_char (sq : List ℚ) (hne : sq ≠ []) (hsum : sq.sum ≠ 1) :
    ∃ p, 1 ≤ p ∧ p ≤ sq.length ∧
      retainSorted id sq = sq.drop p ∧
      (sq.sum - (1 - sq.sum) ≤ (sq.take p).sum ∨ p = sq.length) ∧
      (∀ q, 1 ≤ q → q < p → (sq.take q).sum < sq.sum - (1 - sq.sum)) := by
  have hmap : sq.map id = sq := List.map_id sq
  have hprune : retainSorted id sq =
      if cutLen sq (sq.sum - (1 - sq.sum)) < sq.length then
        sq.drop (cutLen sq (sq.sum - (1 - sq.sum)))
      else [] := by
    rw [retainSorted, hmap, if_neg hsum]
  obtain ⟨w, t, rfl⟩ : ∃ w t, sq = w :: t := by
    cases sq with
    | nil => exact absurd rfl hne
    | cons w t => exact ⟨w, t, rfl⟩
  by_cases hcut : cutLen (w :: t) ((w :: t).sum - (1 - (w :: t).sum)) < (w :: t).length
  · refine ⟨cutLen (w :: t) ((w :: t).sum - (1 - (w :: t).sum)),
      one_le_cutLen w t _, le_of_lt hcut, ?_, ?_, ?_⟩
    · rw [hprune, if_pos hcut]
    · exact Or.inl (take_cutLen_sum_ge _ _ hcut)
    · intro q hq1 hq2
      exact take_sum_lt_of_lt_cutLen _ _ q hq1 hq2
  · have hcl : cutLen (w :: t) ((w :: t).sum - (1 - (w :: t).sum)) = (w :: t).length :=
      le_antisymm (cutLen_le_length _ _) (le_of_not_lt hcut)
    refine ⟨(w :: t).length, by simp, le_refl _, ?_, Or.inr rfl, ?_⟩
    · rw [hprune, if_neg hcut, List.drop_length]
    · intro q hq1 hq2
      exact take_sum_lt_of_lt_cutLen _ _ q hq1 (hcl ▸ hq2)

/-- C1 amended.  For every waypoint with at least one backward edge whose
total backward mass is not 1, the code drops exactly the smallest *nonempty*
prefix of the ascending-sorted backward edges whose cumulative sum reaches
`diff = B - (1 - B)` (all of the edges when no prefix reaches it), and
retains the remaining higher-weight edges; the retained set is empty exactly
when that prefix exhausts the whole edge list. -/
theorem backward_pruning_minimal_nonempty_cut (ws : List ℚ)
    (hne : ws ≠ []) (hsum : ws.sum ≠ 1) :
    ∃ p, 1 ≤ p ∧ p ≤ ws.length ∧
      pruneBackwardWeights ws = (ws.insertionSort (· ≤ ·)).drop p ∧
      (ws.sum - (1 - ws.sum) ≤ ((ws.insertionSort (· ≤ ·)).take p).sum ∨
        p = ws.length) ∧
      (∀ q, 1 ≤ q → q < p →
        ((ws.insertionSort (· ≤ ·)).take q).sum < ws.sum - (1 - ws.sum)) := by
  have hperm : (ws.insertionSort (· ≤ ·)).Perm ws := List.perm_insertionSort _ ws
  have hsumEq : (ws.insertionSort (· ≤ ·)).sum = ws.sum := hperm.sum_eq
  have hlenEq : (ws.insertionSort (· ≤ ·)).length = ws.length := hperm.length_eq
  have hsqne : ws.insertionSort (· ≤ ·) ≠ [] := by
    intro h
    rw [h] at hlenEq
    exact hne (List.length_eq_zero.1 hlenEq.symm)
  obtain ⟨p, hp1, hp2, hp3, hp4, hp5⟩ :=
    retainSorted_id_char (ws.insertionSort (· ≤ ·)) hsqne (by rw [hsumEq]; exact hsum)
  rw [hsumEq] at hp4 hp5
  rw [hlenEq] at hp2 hp4
  exact ⟨p, hp1, hp2, hp3, hp4, hp5⟩

/-- C1 amended, witness: the hypotheses hold at `ws = [1/10, 1/5]` and the
characterization follows by applying the amended theorem there. -/
theorem backward_pruning_minimal_nonempty_cut_witness :
    (([1/10, 1/5] : List ℚ) ≠ [] ∧ ([1/10, 1/5] : List ℚ).sum ≠ 1) ∧
    (∃ p, 1 ≤ p ∧ p ≤ ([1/10, 1/5] : List ℚ).length ∧
      pruneBackwardWeights [1/10, 1/5] =
        (([1/10, 1/5] : List ℚ).insertionSort (· ≤ ·)).drop p ∧
      (([1/10, 1/5] : List ℚ).sum - (1 - ([1/10, 1/5] : List ℚ).sum) ≤
          ((([1/10, 1/5] : List ℚ).insertionSort (· ≤ ·)).take p).sum ∨
        p = ([1/10, 1/5] : List ℚ).length) ∧
      (∀ q, 1 ≤ q → q < p →
        ((([1/10, 1/5] : List ℚ).insertionSort (· ≤ ·)).take q).sum <
          ([1/10, 1/5] : List ℚ).sum - (1 - ([1/10, 1/5] : List ℚ).sum))) :=
  ⟨⟨by simp, by norm_num⟩,
    backward_pruning_minimal_nonempty_cut [1/10, 1/5] (by simp) (by norm_num)⟩

/-- C2.  Evaluating the embedded `_normalize_transition_matrix` at a matrix
whose second row has zero total affinity: the routine has no error path, the
zero row flows through silently, and the result contains a zero row — in
contradiction with the claim (and spec §4.4/§7), which demands a fatal
diagnostic abort for such rows. -/
theorem normalize_zero_row_is_silent :
    rowSum zeroRowMatrix 1 = 0 ∧
    normalizeTransitionMatrix zeroRowMatrix = ![![1/2, 1/2], ![0, 0]] ∧
    rowSum (normalizeTransitionMatrix zeroRowMatrix) 1 = 0 := by
  refine ⟨?_, ?_, ?_⟩
  · simp [rowSum, Fin.sum_univ_two, zeroRowMatrix]
  · funext i j
    fin_cases i <;> fin_cases j <;>
      simp [normalizeTransitionMatrix, rowSum, Fin.sum_univ_two, zeroRowMatrix] <;>
      norm_num
  · simp [rowSum, Fin.sum_univ_two, normalizeTransitionMatrix, zeroRowMatrix]

theorem mem_uniqueKeepFirst {α : Type} [DecidableEq α] (a : α) (l : List α) :
    a ∈ uniqueKeepFirst l ↔ a ∈ l := by
  induction l using uniqueKeepFirst.induct with
  | case1 => simp [uniqueKeepFirst]
  | case2 x xs ih =>
    rw [uniqueKeepFirst]
    by_cases hax : a = x
    · simp [hax]
    · simp only [List.mem_cons, ih, List.mem_filter, hax, false_or]
      constructor
      · exact fun h => h.1
      · exact fun h => ⟨h, by simp [hax]⟩

theorem length_uniqueKeepFirst_le {α : Type} [DecidableEq α] (l : List α) :
    (uniqueKeepFirst l).length ≤ l.length := by
  induction l using uniqueKeepFirst.induct with
  | case1 => simp [uniqueKeepFirst]
  | case2 x xs ih =>
    rw [uniqueKeepFirst]
    simp only [List.length_cons]
    exact Nat.succ_le_succ (le_trans ih (List.length_filter_le _ _))

theorem nodup_uniqueKeepFirst {α : Type} [DecidableEq α] (l : List α) :
    (uniqueKeepFirst l).Nodup := by
  induction l using uniqueKeepFirst.induct with
  | case1 => simp [uniqueKeepFirst]
  | case2 x xs ih =>
    rw [uniqueKeepFirst]
    refine List.nodup_cons.2 ⟨?_, ih⟩
    intro hmem
    have := (mem_uniqueKeepFirst x _).1 hmem
    simp [List.mem_filter] at this

theorem mem_idxSort (a : ℕ) (l : List ℕ) : a ∈ idxSort l ↔ a ∈ l :=
  (List.perm_insertionSort _ l).mem_iff

/-- C6.  The waypoint sequence handed to the rest of the pipeline — for both
`run_palantir` (with or without user terminal states) and
`identify_terminal_states` — starts with the designated start cell and
contains it exactly once, whatever the sampled, boundary and terminal label
lists are. -/
theorem waypoint_sequence_start_first_unique (sampled boundaries : List ℕ)
    (terminals : Option (List ℕ)) (startCell : ℕ) :
    (waypointSeq sampled boundaries terminals startCell).head? = some startCell ∧
    (waypointSeq sampled boundaries terminals startCell).count startCell = 1 := by
  refine ⟨rfl, ?_⟩
  show List.count startCell (startCell :: _) = 1
  rw [List.count_cons_self]
  have hnot : startCell ∉ uniqueKeepFirst (idxDifference
      (match terminals with
        | some ts => idxUnion (idxUnion sampled boundaries) ts
        | none => idxUnion sampled boundaries) [startCell]) := by
    intro hmem
    have h1 := (mem_uniqueKeepFirst _ _).1 hmem
    rw [idxDifference, mem_idxSort, mem_uniqueKeepFirst] at h1
    have h2 := (List.mem_filter.1 h1).2
    simp at h2
  rw [List.count_eq_zero.2 hnot]

theorem argmaxFirst_from_some {n : ℕ} (f : Fin n → ℚ) (l : List (Fin n)) (b : Fin n) :
    ∃ r, l.foldl (fun acc x => match acc with
      | none => some x
      | some b => if f b < f x then some x else acc) (some b) = some r := by
  induction l generalizing b with
  | nil => exact ⟨b, rfl⟩
  | cons x xs ih =>
    simp only [List.foldl_cons]
    by_cases h : f b < f x
    · simpa [h] using ih x
    · simpa [h] using ih b

theorem argmaxFirst_some {n : ℕ} (f : Fin n → ℚ) (l : List (Fin n)) (hne : l ≠ []) :
    ∃ r, argmaxFirst f l = some r := by
  cases l with
  | nil => exact absurd rfl hne
  | cons x xs =>
    rw [argmaxFirst]
    simp only [List.foldl_cons]
    exact argmaxFirst_from_some f xs x

theorem length_maxMinExtend {N : ℕ} (hN : 0 < N) (vec : Fin N → ℚ) (k : ℕ)
    (chosen : List (Fin N)) :
    (maxMinExtend vec k chosen).length = chosen.length + k := by
  induction k generalizing chosen with
  | zero => rfl
  | succ k ih =>
    have hfin : (List.finRange N) ≠ [] := by
      intro h
      have := List.length_finRange N
      rw [h] at this
      simp at this
      omega
    obtain ⟨r, hr⟩ := argmaxFirst_some (fun j => minDistTo vec chosen j) _ hfin
    rw [maxMinExtend, hr, ih]
    simp only [List.length_append, List.length_cons, List.length_nil]
    omega

theorem length_maxMinColumn {N : ℕ} (hN : 0 < N) (vec : Fin N → ℚ)
    (init : Fin N) (steps : ℕ) (hs : 0 < steps) :
    (maxMinColumn vec init steps).length = steps := by
  rw [maxMinColumn, length_maxMinExtend hN]
  simp only [List.length_cons, List.length_nil]
  omega

/-- C8.  For every data matrix with at least one column, row labels, random
initialization and `num_waypoints` at least the column count,
`_max_min_sampling` succeeds and returns a deduplicated list of at most
`num_waypoints` labels, each of which is a row label of the input. -/
theorem max_min_sampling_bounds {N c : ℕ} (data : Fin N → Fin c → ℚ)
    (index : Fin N → ℕ) (numWaypoints : ℕ) (init : Fin c → Fin N)
    (hc : 0 < c) (hw : c ≤ numWaypoints) :
    ∃ ws, maxMinSampling data index numWaypoints init = some ws ∧
      ws.Nodup ∧ ws.length ≤ numWaypoints ∧
      ∀ l ∈ ws, ∃ i : Fin N, index i = l := by
  have hc0 : c ≠ 0 := Nat.pos_iff_ne_zero.1 hc
  have hdiv : ¬ (numWaypoints / c = 0) :=
    Nat.pos_iff_ne_zero.1 (Nat.div_pos hw hc)
  have hN : 0 < N := (init ⟨0, hc⟩).pos
  refine ⟨_, by rw [maxMinSampling, if_neg hc0, if_neg hdiv], nodup_uniqueKeepFirst _, ?_, ?_⟩
  · have hcol : ∀ col : Fin c,
        (maxMinColumn (fun i => data i col) (init col) (numWaypoints / c)).length
          = numWaypoints / c := by
      intro col
      exact length_maxMinColumn hN _ _ _ (Nat.div_pos hw hc)
    have hjoin : ((((List.finRange c).map
        (fun col => maxMinColumn (fun i => data i col) (init col)
          (numWaypoints / c))).flatten).map index).length = c * (numWaypoints / c) := by
      rw [List.length_map, List.length_flatten, List.map_map]
      have : ∀ col : Fin c, (List.length ∘ fun col =>
          maxMinColumn (fun i => data i col) (init col) (numWaypoints / c)) col
            = numWaypoints / c := fun col => hcol col
      rw [List.map_congr_left (fun col _ => this col)]
      simp [List.map_const', List.sum_replicate, mul_comm]
    calc (uniqueKeepFirst ((((List.finRange c).map
          (fun col => maxMinColumn (fun i => data i col) (init col)
            (numWaypoints / c))).flatten).map index)).length
        ≤ c * (numWaypoints / c) := by
          rw [← hjoin]; exact length_uniqueKeepFirst_le _
      _ ≤ numWaypoints := by
          rw [mul_comm]; exact Nat.div_mul_le_self _ _
  · intro l hl
    have hmem := (mem_uniqueKeepFirst _ _).1 hl
    obtain ⟨i, _, rfl⟩ := List.mem_map.1 hmem
    exact ⟨i, rfl⟩

/-- C8 witness: at a 1-cell, 1-column matrix with `num_waypoints = 1`. -/
theorem max_min_sampling_bounds_witness :
    ((0 : ℕ) < 1 ∧ (1 : ℕ) ≤ 1) ∧
    (∃ ws, maxMinSampling (fun _ _ => (0 : ℚ)) (fun _ : Fin 1 => 7) 1
        (fun _ : Fin 1 => (0 : Fin 1)) = some ws ∧
      ws.Nodup ∧ ws.length ≤ 1 ∧ ∀ l ∈ ws, ∃ _ : Fin 1, (7 : ℕ) = l) :=
  ⟨⟨by decide, by decide⟩,
    max_min_sampling_bounds (fun _ _ => (0 : ℚ)) (fun _ => 7) 1 (fun _ => 0)
      (by decide) (by decide)⟩

/-- C10.  When `0 < num_waypoints < data.shape[1]`, the per-column iteration
count truncates to zero and `_max_min_sampling` fails (IndexError on
`dists[:, 0]`) instead of returning a waypoint set. -/
theorem max_min_sampling_small_numwaypoints_fails {N c : ℕ}
    (data : Fin N → Fin c → ℚ) (index : Fin N → ℕ) (numWaypoints : ℕ)
    (init : Fin c → Fin N) (h1 : 0 < numWaypoints) (h2 : numWaypoints < c) :
    maxMinSampling data index numWaypoints init = none := by
  have hc0 : c ≠ 0 := by omega
  rw [maxMinSampling, if_neg hc0, if_pos (Nat.div_eq_of_lt h2)]

/-- C10 witness: one data row, two columns, `num_waypoints = 1`. -/
theorem max_min_sampling_small_numwaypoints_fails_witness :
    ((0 : ℕ) < 1 ∧ (1 : ℕ) < 2) ∧
    maxMinSampling (fun (_ : Fin 1) (_ : Fin 2) => (0 : ℚ)) (fun _ => 0) 1
      (fun _ => (0 : Fin 1)) = none :=
  ⟨⟨by decide, by decide⟩,
    max_min_sampling_small_numwaypoints_fails _ _ 1 _ (by decide) (by decide)⟩

/-- C9.  `_compute_absorption_probabilities` mutates its csr argument in
place: after the call the caller's matrix has every absorbing row zeroed
except a unit self-loop, other rows are untouched, and whenever some
absorbing row differed from that shape before the call the argument does not
retain its pre-call value. -/
theorem absorption_mutates_caller_argument {n : ℕ} (T : TMat n)
    (absS : Finset (Fin n))
    (Nmat : Matrix (Fin (transList absS).length) (Fin (transList absS).length) ℚ)
    (h : ∃ s ∈ absS, ∃ j, T s j ≠ if j = s then 1 else 0) :
    (∀ s ∈ absS, ∀ j, (computeAbsorptionProbabilities T absS Nmat).2 s j
        = if j = s then 1 else 0) ∧
    (∀ i ∉ absS, ∀ j, (computeAbsorptionProbabilities T absS Nmat).2 i j = T i j) ∧
    (computeAbsorptionProbabilities T absS Nmat).2 ≠ T := by
  refine ⟨?_, ?_, ?_⟩
  · intro s hs j
    simp [computeAbsorptionProbabilities, absorbMutate, hs]
  · intro i hi j
    simp [computeAbsorptionProbabilities, absorbMutate, hi]
  · obtain ⟨s, hs, j, hj⟩ := h
    intro heq
    apply hj
    calc T s j = (computeAbsorptionProbabilities T absS Nmat).2 s j := by rw [heq]
    _ = if j = s then 1 else 0 := by
        simp [computeAbsorptionProbabilities, absorbMutate, hs]

/-- C9 witness: the all-ones 2×2 matrix with state 0 absorbing. -/
theorem absorption_mutates_caller_argument_witness :
    (∃ s ∈ ({0} : Finset (Fin 2)), ∃ j, onesMatrix2 s j ≠
      if j = s then 1 else 0) ∧
    ((∀ s ∈ ({0} : Finset (Fin 2)), ∀ j,
        (computeAbsorptionProbabilities onesMatrix2 {0} 1).2 s j
          = if j = s then 1 else 0) ∧
     (∀ i ∉ ({0} : Finset (Fin 2)), ∀ j,
        (computeAbsorptionProbabilities onesMatrix2 {0} 1).2 i j
          = onesMatrix2 i j) ∧
     (computeAbsorptionProbabilities onesMatrix2 {0} 1).2 ≠ onesMatrix2) := by
  have hmem : (0 : Fin 2) ∈ ({0} : Finset (Fin 2)) := by decide
  have hval : onesMatrix2 0 1 ≠ if (1 : Fin 2) = (0 : Fin 2) then 1 else 0 := by
    norm_num [onesMatrix2]
  exact ⟨⟨0, hmem, 1, hval⟩,
    absorption_mutates_caller_argument onesMatrix2 {0} 1 ⟨0, hmem, 1, hval⟩⟩

theorem trajGo_no_convergence {m c : ℕ} (D W : Fin (m + 1) → Fin c → ℚ)
    (wpCell : Fin (m + 1) → Fin c)
    (h : ∀ traj : Fin c → ℚ, ¬ corrExceeds traj (trajStep D W wpCell traj)) :
    ∀ fuel traj, (trajGo D W wpCell fuel traj).2 = (fuel, false) := by
  intro fuel
  induction fuel with
  | zero => intro traj; rfl
  | succ k ih =>
    intro traj
    rw [trajGo]
    simp only [if_neg (h traj)]
    rw [Prod.ext_iff]
    exact ⟨by simp [ih], by simp [ih]⟩

theorem const_step_no_convergence {c : ℕ} (traj y : Fin c → ℚ) (a : ℚ)
    (hy : y = fun _ => a) : ¬ corrExceeds traj y := by
  subst hy
  intro hcv
  have hzero : covSum traj (fun _ : Fin c => a) = 0 := by
    rcases Nat.eq_zero_or_pos c with hc | hc
    · subst hc
      simp [covSum]
    · have hcQ : (c : ℚ) ≠ 0 := Nat.cast_ne_zero.2 (Nat.pos_iff_ne_zero.1 hc)
      have hmean : vecMean (fun _ : Fin c => a) = a := by
        rw [vecMean]
        rw [Finset.sum_const, Finset.card_univ, Fintype.card_fin, nsmul_eq_mul]
        field_simp
      simp [covSum, hmean]
  exact lt_irrefl 0 (hzero ▸ hcv.1)

/-- C5 counterexample.  With one waypoint, two cells, a zero distance matrix
and unit weights the refinement never converges (every new trajectory is the
constant 0, giving a degenerate correlation), yet with `max_iterations = 25`
the loop performs only 24 passes: the counter starts at 1 and the loop runs
while `iteration < max_iterations` (core.py lines 283-284), so the claimed
`max_iterations` passes are never performed. -/
theorem trajectory_loop_claim_refuted :
    (computeTrajectoryLoop (fun _ _ => (0 : ℚ))
      (fun (_ : Fin 1) (_ : Fin 2) => (1 : ℚ)) (fun _ => 0) 25).2 = (24, false) ∧
    (24 : ℕ) ≠ 25 := by
  have hstep : ∀ traj : Fin 2 → ℚ,
      trajStep (fun _ _ => (0 : ℚ)) (fun (_ : Fin 1) (_ : Fin 2) => (1 : ℚ))
        (fun _ => 0) traj = fun _ => 0 := by
    intro traj
    funext cell
    simp [trajStep, perspectiveRow, Fin.sum_univ_one]
  have hno : ∀ traj : Fin 2 → ℚ, ¬ corrExceeds traj
      (trajStep (fun _ _ => (0 : ℚ)) (fun (_ : Fin 1) (_ : Fin 2) => (1 : ℚ))
        (fun _ => 0) traj) :=
    fun traj => const_step_no_convergence traj _ 0 (hstep traj)
  exact ⟨trajGo_no_convergence _ _ _ hno 24 _, by decide⟩

theorem trajGo_spec {m c : ℕ} (D W : Fin (m + 1) → Fin c → ℚ)
    (wpCell : Fin (m + 1) → Fin c) :
    ∀ (fuel : ℕ) (traj : Fin c → ℚ),
      ((trajGo D W wpCell fuel traj).2.2 = false →
        (trajGo D W wpCell fuel traj).2.1 = fuel ∧
        (trajGo D W wpCell fuel traj).1 = (trajStep D W wpCell)^[fuel] traj ∧
        ∀ k < fuel, ¬ corrExceeds ((trajStep D W wpCell)^[k] traj)
          ((trajStep D W wpCell)^[k + 1] traj)) ∧
      ((trajGo D W wpCell fuel traj).2.2 = true →
        1 ≤ (trajGo D W wpCell fuel traj).2.1 ∧
        (trajGo D W wpCell fuel traj).2.1 ≤ fuel ∧
        (trajGo D W wpCell fuel traj).1
          = (trajStep D W wpCell)^[(trajGo D W wpCell fuel traj).2.1] traj ∧
        corrExceeds ((trajStep D W wpCell)^[(trajGo D W wpCell fuel traj).2.1 - 1] traj)
          ((trajStep D W wpCell)^[(trajGo D W wpCell fuel traj).2.1] traj) ∧
        ∀ k < (trajGo D W wpCell fuel traj).2.1 - 1,
          ¬ corrExceeds ((trajStep D W wpCell)^[k] traj)
            ((trajStep D W wpCell)^[k + 1] traj)) := by
  have hiter : ∀ (j : ℕ) (traj : Fin c → ℚ),
      (trajStep D W wpCell)^[j] (trajStep D W wpCell traj)
        = (trajStep D W wpCell)^[j + 1] traj :=
    fun j traj => (Function.iterate_succ_apply (trajStep D W wpCell) j traj).symm
  intro fuel
  induction fuel with
  | zero =>
    intro traj
    constructor
    · intro _
      exact ⟨rfl, rfl, fun k hk => absurd hk (Nat.not_lt_zero k)⟩
    · intro h
      simp [trajGo] at h
  | succ f ih =>
    intro traj
    by_cases hcv : corrExceeds traj (trajStep D W wpCell traj)
    · have hres : trajGo D W wpCell (f + 1) traj
          = (trajStep D W wpCell traj, 1, true) := by
        rw [trajGo]
        simp [hcv]
      rw [hres]
      dsimp only
      constructor
      · intro h
        cases h
      · intro _
        refine ⟨le_refl 1, Nat.succ_le_succ (Nat.zero_le f), ?_, ?_, ?_⟩
        · rw [Function.iterate_one]
        · simpa using hcv
        · intro k hk
          exact absurd hk (by omega)
    · have hres : trajGo D W wpCell (f + 1) traj
          = ((trajGo D W wpCell f (trajStep D W wpCell traj)).1,
             (trajGo D W wpCell f (trajStep D W wpCell traj)).2.1 + 1,
             (trajGo D W wpCell f (trajStep D W wpCell traj)).2.2) := by
        rw [trajGo]
        simp [hcv]
      obtain ⟨ihf, iht⟩ := ih (trajStep D W wpCell traj)
      rw [hres]
      dsimp only
      constructor
      · intro hfl
        obtain ⟨h1, h2, h3⟩ := ihf hfl
        refine ⟨by omega, ?_, ?_⟩
        · rw [h2, hiter]
        · intro k hk
          cases k with
          | zero =>
            intro hcontra
            exact hcv (by simpa using hcontra)
          | succ k' =>
            have h := h3 k' (by omega)
            rw [hiter k', hiter (k' + 1)] at h
            exact h
      · intro htr
        obtain ⟨h1, h2, h3, h4, h5⟩ := iht htr
        refine ⟨by omega, by omega, ?_, ?_, ?_⟩
        · rw [h3, hiter]
        · rw [Nat.add_sub_cancel]
          rw [hiter (trajGo D W wpCell f (trajStep D W wpCell traj)).2.1,
            hiter ((trajGo D W wpCell f (trajStep D W wpCell traj)).2.1 - 1)] at h4
          have heq : (trajGo D W wpCell f (trajStep D W wpCell traj)).2.1 - 1 + 1
              = (trajGo D W wpCell f (trajStep D W wpCell traj)).2.1 := by
            omega
          rw [heq] at h4
          exact h4
        · rw [Nat.add_sub_cancel]
          intro k hk
          cases k with
          | zero =>
            intro hcontra
            exact hcv (by simpa using hcontra)
          | succ k' =>
            have h := h5 k' (by omega)
            rw [hiter k', hiter (k' + 1)] at h
            exact h

/-- C5 amended.  The refinement loop performs at most `max_iterations - 1`
passes (24 with the default 25): when the correlation test never triggers it
performs exactly `max_iterations - 1` passes and returns the last estimate
with no error; when it triggers, it stops at the first pass whose
correlation with the previous trajectory exceeds 0.9999 and returns that
freshly adopted estimate. -/
theorem trajectory_loop_pass_count {m c : ℕ} (D W : Fin (m + 1) → Fin c → ℚ)
    (wpCell : Fin (m + 1) → Fin c) (maxIterations : ℕ) :
    ((computeTrajectoryLoop D W wpCell maxIterations).2.2 = false →
      (computeTrajectoryLoop D W wpCell maxIterations).2.1 = maxIterations - 1 ∧
      (computeTrajectoryLoop D W wpCell maxIterations).1
        = trajSeq D W wpCell (maxIterations - 1) ∧
      ∀ k < maxIterations - 1,
        ¬ corrExceeds (trajSeq D W wpCell k) (trajSeq D W wpCell (k + 1))) ∧
    ((computeTrajectoryLoop D W wpCell maxIterations).2.2 = true →
      1 ≤ (computeTrajectoryLoop D W wpCell maxIterations).2.1 ∧
      (computeTrajectoryLoop D W wpCell maxIterations).2.1 ≤ maxIterations - 1 ∧
      (computeTrajectoryLoop D W wpCell maxIterations).1
        = trajSeq D W wpCell (computeTrajectoryLoop D W wpCell maxIterations).2.1 ∧
      corrExceeds
        (trajSeq D W wpCell ((computeTrajectoryLoop D W wpCell maxIterations).2.1 - 1))
        (trajSeq D W wpCell (computeTrajectoryLoop D W wpCell maxIterations).2.1) ∧
      ∀ k < (computeTrajectoryLoop D W wpCell maxIterations).2.1 - 1,
        ¬ corrExceeds (trajSeq D W wpCell k) (trajSeq D W wpCell (k + 1))) := by
  have h := trajGo_spec D W wpCell (maxIterations - 1) (fun cell => D 0 cell)
  exact h

/-- C5 amended, witness: the non-converging instance from the counterexample
with `max_iterations = 3` performs exactly 2 passes. -/
theorem trajectory_loop_pass_count_witness :
    (computeTrajectoryLoop (fun _ _ => (0 : ℚ))
      (fun (_ : Fin 1) (_ : Fin 2) => (1 : ℚ)) (fun _ => 0) 3).2.2 = false ∧
    (computeTrajectoryLoop (fun _ _ => (0 : ℚ))
      (fun (_ : Fin 1) (_ : Fin 2) => (1 : ℚ)) (fun _ => 0) 3).2.1 = 3 - 1 := by
  have hstep : ∀ traj : Fin 2 → ℚ,
      trajStep (fun _ _ => (0 : ℚ)) (fun (_ : Fin 1) (_ : Fin 2) => (1 : ℚ))
        (fun _ => 0) traj = fun _ => 0 := by
    intro traj
    funext cell
    simp [trajStep, perspectiveRow, Fin.sum_univ_one]
  have hno : ∀ traj : Fin 2 → ℚ, ¬ corrExceeds traj
      (trajStep (fun _ _ => (0 : ℚ)) (fun (_ : Fin 1) (_ : Fin 2) => (1 : ℚ))
        (fun _ => 0) traj) :=
    fun traj => const_step_no_convergence traj _ 0 (hstep traj)
  have hflag : (computeTrajectoryLoop (fun _ _ => (0 : ℚ))
      (fun (_ : Fin 1) (_ : Fin 2) => (1 : ℚ)) (fun _ => 0) 3).2 = (2, false) :=
    trajGo_no_convergence _ _ _ hno 2 _
  have hfl2 : (computeTrajectoryLoop (fun _ _ => (0 : ℚ))
      (fun (_ : Fin 1) (_ : Fin 2) => (1 : ℚ)) (fun _ => 0) 3).2.2 = false := by
    rw [hflag]
  exact ⟨hfl2,
    ((trajectory_loop_pass_count (fun _ _ => (0 : ℚ))
      (fun (_ : Fin 1) (_ : Fin 2) => (1 : ℚ)) (fun _ => 0) 3).1 hfl2).1⟩

theorem retainSorted_sublist {α : Type} (wt : α → ℚ) (es : List α) :
    ∀ x ∈ retainSorted wt es, x ∈ es := by
  intro x hx
  rw [retainSorted] at hx
  split at hx
  · exact hx
  · split at hx
    · exact List.mem_of_mem_drop hx
    · simp at hx

theorem retainSorted_nodup {α : Type} (wt : α → ℚ) (es : List α) (h : es.Nodup) :
    (retainSorted wt es).Nodup := by
  rw [retainSorted]
  split
  · exact h
  · split
    · exact (List.drop_sublist _ _).nodup h
    · exact List.nodup_nil

theorem retainSorted_mass_le {α : Type} (wt : α → ℚ) (es : List α)
    (hne1 : (es.map wt).sum ≠ 1) (hB : (es.map wt).sum ≤ 1) :
    ((retainSorted wt es).map wt).sum ≤ 1 - (es.map wt).sum := by
  rw [retainSorted, if_neg hne1]
  by_cases hcut : cutLen (es.map wt)
      ((es.map wt).sum - (1 - (es.map wt).sum)) < es.length
  · rw [if_pos hcut, List.map_drop]
    have hlen : (es.map wt).length = es.length := List.length_map es wt
    have htake := take_cutLen_sum_ge (es.map wt)
      ((es.map wt).sum - (1 - (es.map wt).sum)) (by rw [hlen]; exact hcut)
    have hsplit := List.sum_take_add_sum_drop (es.map wt)
      (cutLen (es.map wt) ((es.map wt).sum - (1 - (es.map wt).sum)))
    linarith
  · rw [if_neg hcut]
    simp only [List.map_nil, List.sum_nil]
    linarith

theorem filter_finRange_sum {n : ℕ} (f : Fin n → ℚ) (p : Fin n → Prop)
    [DecidablePred p] :
    (((List.finRange n).filter (fun j => decide (p j))).map f).sum
      = ∑ j, if p j then f j else 0 := by
  have hnd : ((List.finRange n).filter (fun j => decide (p j))).Nodup :=
    (List.nodup_finRange n).filter _
  rw [← List.sum_toFinset f hnd]
  have hset : ((List.finRange n).filter (fun j => decide (p j))).toFinset
      = Finset.univ.filter p := by
    ext j
    simp [List.mem_filter]
  rw [hset, Finset.sum_filter]

theorem backwardCols_sum {n : ℕ} (T : TMat n) (traj : Fin n → ℚ) (i : Fin n) :
    ((backwardCols T traj i).map (T i)).sum = backwardMass T traj i := by
  rw [backwardCols, filter_finRange_sum, backwardMass]
  apply Finset.sum_congr rfl
  intro j _
  by_cases h1 : T i j = 0
  · by_cases h2 : traj j < traj i <;> simp [h1, h2]
  · by_cases h2 : traj j < traj i <;> simp [h1, h2]

theorem sum_indicator_list {n : ℕ} (f : Fin n → ℚ) (R : List (Fin n))
    (hnd : R.Nodup) :
    (∑ j, if j ∈ R then f j else 0) = (R.map f).sum := by
  rw [← List.sum_toFinset f hnd]
  have hpt : ∀ j : Fin n, (if j ∈ R then f j else 0)
      = if j ∈ R.toFinset then f j else 0 := by
    intro j
    by_cases h : j ∈ R <;> simp [h]
  rw [Finset.sum_congr rfl (fun j _ => hpt j), Finset.sum_ite_mem,
    Finset.univ_inter]

theorem sortedBackwardCols_nodup {n : ℕ} (T : TMat n) (traj : Fin n → ℚ)
    (i : Fin n) : (sortedBackwardCols T traj i).Nodup := by
  rw [sortedBackwardCols]
  exact (List.perm_insertionSort (edgeLE T i) (backwardCols T traj i)).nodup_iff.2
    ((List.nodup_finRange n).filter _)

theorem sortedBackwardCols_sum {n : ℕ} (T : TMat n) (traj : Fin n → ℚ)
    (i : Fin n) :
    ((sortedBackwardCols T traj i).map (T i)).sum = backwardMass T traj i := by
  rw [sortedBackwardCols]
  have hperm := (List.perm_insertionSort (edgeLE T i) (backwardCols T traj i)).map (T i)
  rw [hperm.sum_eq, backwardCols_sum]

theorem mem_retained_backward {n : ℕ} (T : TMat n) (traj : Fin n → ℚ)
    (i j : Fin n) (h : j ∈ retainedBackwardCols T traj i) :
    T i j ≠ 0 ∧ traj j < traj i := by
  have h1 := retainSorted_sublist (T i) _ j h
  rw [sortedBackwardCols] at h1
  have h2 := (List.perm_insertionSort (edgeLE T i) (backwardCols T traj i)).mem_iff.1 h1
  rw [backwardCols, List.mem_filter] at h2
  exact of_decide_eq_true h2.2

theorem mass_split {n : ℕ} (M : TMat n) (traj : Fin n → ℚ) (i : Fin n) :
    forwardMass M traj i + backwardMass M traj i = rowSum M i := by
  rw [forwardMass, backwardMass, rowSum, ← Finset.sum_add_distrib]
  apply Finset.sum_congr rfl
  intro j _
  rcases le_or_lt (traj i) (traj j) with h | h
  · rw [if_pos h, if_neg (not_lt.2 h), add_zero]
  · rw [if_neg (not_le.2 h), if_pos h, zero_add]

theorem rowSum_normalize {n : ℕ} (M : TMat n) (i : Fin n)
    (h : rowSum M i ≠ 0) : rowSum (normalizeTransitionMatrix M) i = 1 := by
  show (∑ j, M i j / rowSum M i) = 1
  rw [← Finset.sum_div, ← rowSum]
  exact div_self h

theorem forwardMass_normalize {n : ℕ} (M : TMat n) (traj : Fin n → ℚ)
    (i : Fin n) :
    forwardMass (normalizeTransitionMatrix M) traj i
      = forwardMass M traj i / rowSum M i := by
  rw [forwardMass, forwardMass, Finset.sum_div]
  apply Finset.sum_congr rfl
  intro j _
  by_cases h : traj i ≤ traj j
  · rw [if_pos h, if_pos h]
    rfl
  · rw [if_neg h, if_neg h, zero_div]

theorem backwardMass_normalize {n : ℕ} (M : TMat n) (traj : Fin n → ℚ)
    (i : Fin n) :
    backwardMass (normalizeTransitionMatrix M) traj i
      = backwardMass M traj i / rowSum M i := by
  rw [backwardMass, backwardMass, Finset.sum_div]
  apply Finset.sum_congr rfl
  intro j _
  by_cases h : traj j < traj i
  · rw [if_pos h, if_pos h]
    rfl
  · rw [if_neg h, if_neg h, zero_div]

theorem le_forwardMass {n : ℕ} (T : TMat n) (traj : Fin n → ℚ) (i j : Fin n)
    (h0 : ∀ k, 0 ≤ T i k) (hj : traj i ≤ traj j) :
    T i j ≤ forwardMass T traj i := by
  rw [forwardMass]
  have hs := Finset.single_le_sum
    (f := fun k => if traj i ≤ traj k then T i k else 0)
    (fun k _ => by by_cases h : traj i ≤ traj k <;> simp [h, h0 k])
    (Finset.mem_univ j)
  simpa [hj] using hs

theorem forwardMass_pruned {n : ℕ} (T : TMat n) (traj : Fin n → ℚ) (i : Fin n) :
    forwardMass (pruneBackwardEdges T traj) traj i = forwardMass T traj i := by
  rw [forwardMass, forwardMass]
  apply Finset.sum_congr rfl
  intro j _
  by_cases h : traj i ≤ traj j
  · simp only [pruneBackwardEdges, if_pos h]
  · rw [if_neg h, if_neg h]

theorem backwardMass_pruned {n : ℕ} (T : TMat n) (traj : Fin n → ℚ) (i : Fin n) :
    backwardMass (pruneBackwardEdges T traj) traj i
      = ((retainedBackwardCols T traj i).map (T i)).sum := by
  have hpoint : ∀ j, (if traj j < traj i then pruneBackwardEdges T traj i j else 0)
      = if j ∈ retainedBackwardCols T traj i then T i j else 0 := by
    intro j
    by_cases hR : j ∈ retainedBackwardCols T traj i
    · have hjb := (mem_retained_backward T traj i j hR).2
      rw [if_pos hjb, if_pos hR]
      simp only [pruneBackwardEdges, if_neg (not_le.2 hjb), if_pos hR]
    · rw [if_neg hR]
      by_cases hjb : traj j < traj i
      · rw [if_pos hjb]
        simp only [pruneBackwardEdges, if_neg (not_le.2 hjb), if_neg hR]
      · rw [if_neg hjb]
  rw [backwardMass, Finset.sum_congr rfl (fun j _ => hpoint j)]
  exact sum_indicator_list (T i) _
    (retainSorted_nodup _ _ (sortedBackwardCols_nodup T traj i))

theorem pruned_row_facts {n : ℕ} (T : TMat n) (traj : Fin n → ℚ) (i : Fin n)
    (h0 : ∀ j, 0 ≤ T i j) (h1 : rowSum T i = 1) :
    0 < rowSum (pruneBackwardEdges T traj) i ∧
    (backwardMass (pruneBackwardEdges T traj) traj i ≤ forwardMass T traj i ∨
      forwardMass T traj i = 0) := by
  have hFnn : 0 ≤ forwardMass T traj i :=
    Finset.sum_nonneg fun j _ => by
      by_cases h : traj i ≤ traj j <;> simp [h, h0 j]
  have hsplitT := mass_split T traj i
  have hsorted := sortedBackwardCols_sum T traj i
  have hS : rowSum (pruneBackwardEdges T traj) i
      = forwardMass T traj i + backwardMass (pruneBackwardEdges T traj) traj i := by
    rw [← mass_split (pruneBackwardEdges T traj) traj i, forwardMass_pruned]
  have hBnn' : 0 ≤ backwardMass (pruneBackwardEdges T traj) traj i := by
    rw [backwardMass_pruned]
    apply List.sum_nonneg
    intro x hx
    obtain ⟨j, _, rfl⟩ := List.mem_map.1 hx
    exact h0 j
  by_cases hB1 : ((sortedBackwardCols T traj i).map (T i)).sum = 1
  · have hR : retainedBackwardCols T traj i = sortedBackwardCols T traj i := by
      rw [retainedBackwardCols, retainSorted, if_pos hB1]
    have hBk : backwardMass T traj i = 1 := by rw [← hsorted, hB1]
    have hF0 : forwardMass T traj i = 0 := by linarith
    refine ⟨?_, Or.inr hF0⟩
    rw [hS, backwardMass_pruned, hR, hB1, hF0]
    norm_num
  · have hBk_le : backwardMass T traj i ≤ 1 := by linarith
    have hmassle := retainSorted_mass_le (T i) (sortedBackwardCols T traj i) hB1
      (by rw [hsorted]; exact hBk_le)
    have hBle : backwardMass (pruneBackwardEdges T traj) traj i
        ≤ 1 - backwardMass T traj i := by
      rw [backwardMass_pruned, retainedBackwardCols]
      calc ((retainSorted (T i) (sortedBackwardCols T traj i)).map (T i)).sum
          ≤ 1 - ((sortedBackwardCols T traj i).map (T i)).sum := hmassle
        _ = 1 - backwardMass T traj i := by rw [hsorted]
    have hne : backwardMass T traj i ≠ 1 := by rw [← hsorted]; exact hB1
    have hFpos : 0 < forwardMass T traj i := by
      rcases lt_or_eq_of_le hBk_le with h | h
      · linarith
      · exact absurd h hne
    refine ⟨by rw [hS]; linarith, Or.inl ?_⟩
    calc backwardMass (pruneBackwardEdges T traj) traj i
        ≤ 1 - backwardMass T traj i := hBle
      _ = forwardMass T traj i := by linarith

/-- C3.  In the transition matrix produced by
`_construct_phenotypic_markov_chain` after pruning and re-normalization (for
any row-stochastic nonnegative pre-pruning transition matrix): every forward
edge of the pre-pruning matrix is retained with positive probability, every
row sums to 1, and every waypoint that still has both forward and backward
outgoing edges carries at least as much forward as backward probability
mass. -/
theorem chain_pruning_invariants {n : ℕ} (T : TMat n) (traj : Fin n → ℚ)
    (h0 : ∀ i j, 0 ≤ T i j) (h1 : ∀ i, rowSum T i = 1) :
    (∀ i j, traj i ≤ traj j → 0 < T i j → 0 < constructChain T traj i j) ∧
    (∀ i, rowSum (constructChain T traj) i = 1) ∧
    (∀ i, (∃ j, 0 < constructChain T traj i j ∧ traj i ≤ traj j) →
      (∃ j, 0 < constructChain T traj i j ∧ traj j < traj i) →
      backwardMass (constructChain T traj) traj i
        ≤ forwardMass (constructChain T traj) traj i) := by
  refine ⟨?_, ?_, ?_⟩
  · intro i j hfwd hpos
    obtain ⟨hS, _⟩ := pruned_row_facts T traj i (h0 i) (h1 i)
    have hentry : pruneBackwardEdges T traj i j = T i j := by
      simp only [pruneBackwardEdges, if_pos hfwd]
    show 0 < pruneBackwardEdges T traj i j / rowSum (pruneBackwardEdges T traj) i
    rw [hentry]
    exact div_pos hpos hS
  · intro i
    obtain ⟨hS, _⟩ := pruned_row_facts T traj i (h0 i) (h1 i)
    exact rowSum_normalize _ i (ne_of_gt hS)
  · intro i hf _
    obtain ⟨hS, hdisj⟩ := pruned_row_facts T traj i (h0 i) (h1 i)
    rw [constructChain, backwardMass_normalize, forwardMass_normalize]
    rcases hdisj with hle | hF0
    · refine (div_le_div_iff_of_pos_right hS).2 ?_
      rw [forwardMass_pruned]
      exact hle
    · exfalso
      obtain ⟨j, hcj, hfwd⟩ := hf
      have hTle := le_forwardMass T traj i j (h0 i) hfwd
      have hTj0 : T i j = 0 := le_antisymm (hF0 ▸ hTle) (h0 i j)
      have hzero : constructChain T traj i j = 0 := by
        show pruneBackwardEdges T traj i j / _ = 0
        simp only [pruneBackwardEdges, if_pos hfwd]
        rw [hTj0, zero_div]
      rw [hzero] at hcj
      exact lt_irrefl 0 hcj

/-- C3 witness: the concrete 3-waypoint stochastic matrix
`chainWitnessT` with trajectory `0, 1, 2`. -/
theorem chain_pruning_invariants_witness :
    ((∀ i j, 0 ≤ chainWitnessT i j) ∧ (∀ i, rowSum chainWitnessT i = 1)) ∧
    ((∀ i j, chainWitnessTraj i ≤ chainWitnessTraj j → 0 < chainWitnessT i j →
        0 < constructChain chainWitnessT chainWitnessTraj i j) ∧
     (∀ i, rowSum (constructChain chainWitnessT chainWitnessTraj) i = 1) ∧
     (∀ i, (∃ j, 0 < constructChain chainWitnessT chainWitnessTraj i j ∧
          chainWitnessTraj i ≤ chainWitnessTraj j) →
        (∃ j, 0 < constructChain chainWitnessT chainWitnessTraj i j ∧
          chainWitnessTraj j < chainWitnessTraj i) →
        backwardMass (constructChain chainWitnessT chainWitnessTraj)
            chainWitnessTraj i
          ≤ forwardMass (constructChain chainWitnessT chainWitnessTraj)
            chainWitnessTraj i)) := by
  have h0 : ∀ i j, 0 ≤ chainWitnessT i j := by
    intro i j
    fin_cases i <;> fin_cases j <;> norm_num [chainWitnessT]
  have h1 : ∀ i, rowSum chainWitnessT i = 1 := by
    intro i
    fin_cases i <;> norm_num [rowSum, Fin.sum_univ_three, chainWitnessT]
  exact ⟨⟨h0, h1⟩, chain_pruning_invariants chainWitnessT chainWitnessTraj h0 h1⟩

theorem sinkUpdate_nonneg {n : ℕ} (M : TMat n) (s : Fin n)
    (h0 : ∀ i j, 0 ≤ M i j) : ∀ i j, 0 ≤ sinkUpdate M s i j := by
  intro i j
  rw [sinkUpdate]
  split
  · norm_num
  · exact h0 i j

theorem sinkUpdate_rowSum_pos {n : ℕ} (M : TMat n) (s : Fin n)
    (h0 : ∀ i j, 0 ≤ M i j) (h1 : ∀ i, 0 < rowSum M i) :
    ∀ i, 0 < rowSum (sinkUpdate M s) i := by
  intro i
  by_cases hc : 0 < M s i
  · have hdecomp : rowSum (sinkUpdate M s) i
        = (1/2 : ℚ) + ∑ j ∈ Finset.univ.erase s, sinkUpdate M s i j := by
      rw [rowSum, ← Finset.add_sum_erase _ _ (Finset.mem_univ s)]
      congr 1
      simp [sinkUpdate, hc]
    rw [hdecomp]
    have hrest : 0 ≤ ∑ j ∈ Finset.univ.erase s, sinkUpdate M s i j :=
      Finset.sum_nonneg fun j _ => sinkUpdate_nonneg M s h0 i j
    linarith
  · have hsame : rowSum (sinkUpdate M s) i = rowSum M i := by
      rw [rowSum, rowSum]
      refine Finset.sum_congr rfl fun j _ => ?_
      rw [sinkUpdate, if_neg (fun hand => hc hand.2)]
    rw [hsame]
    exact h1 i

theorem foldl_sink_props {n : ℕ} (l : List (Fin n)) (M : TMat n)
    (h0 : ∀ i j, 0 ≤ M i j) (h1 : ∀ i, 0 < rowSum M i) :
    (∀ i j, 0 ≤ l.foldl sinkUpdate M i j) ∧
    (∀ i, 0 < rowSum (l.foldl sinkUpdate M) i) := by
  induction l generalizing M with
  | nil => exact ⟨h0, h1⟩
  | cons s rest ih =>
    simp only [List.foldl_cons]
    exact ih (sinkUpdate M s) (sinkUpdate_nonneg M s h0)
      (sinkUpdate_rowSum_pos M s h0 h1)

theorem mem_transList_iff {n : ℕ} (absS : Finset (Fin n)) (j : Fin n) :
    j ∈ transList absS ↔ j ∉ absS := by
  rw [transList, List.mem_filter]
  simp

theorem mem_absList_iff {n : ℕ} (absS : Finset (Fin n)) (j : Fin n) :
    j ∈ absList absS ↔ j ∈ absS := by
  rw [absList, List.mem_filter]
  simp

theorem trans_abs_sum_split {n : ℕ} (absS : Finset (Fin n)) (f : Fin n → ℚ) :
    (∑ p, f ((transList absS).get p)) + (∑ q, f ((absList absS).get q))
      = ∑ j, f j := by
  have hof : ∀ (l : List (Fin n)),
      (∑ p : Fin l.length, f (l.get p)) = (l.map f).sum := by
    intro l
    conv_rhs => rw [← List.ofFn_get l]
    rw [List.map_ofFn, List.sum_ofFn]
    rfl
  have htrans_nd : (transList absS).Nodup := (List.nodup_finRange n).filter _
  have habs_nd : (absList absS).Nodup := (List.nodup_finRange n).filter _
  rw [hof, hof, ← List.sum_toFinset f htrans_nd, ← List.sum_toFinset f habs_nd]
  have h1 : (transList absS).toFinset
      = Finset.univ.filter (fun j => j ∉ absS) := by
    ext j
    simp [transList, List.mem_filter]
  have h2 : (absList absS).toFinset
      = Finset.univ.filter (fun j => j ∈ absS) := by
    ext j
    simp [absList, List.mem_filter]
  rw [h1, h2]
  have hsplit := Finset.sum_filter_add_sum_filter_not Finset.univ
    (fun j => j ∉ absS) f
  rw [← hsplit]
  congr 1
  apply Finset.sum_congr
  · ext j
    simp
  · intros
    rfl

theorem absorbMutate_rowSum_pos {n : ℕ} (M : TMat n) (absS : Finset (Fin n))
    (h1 : ∀ i, 0 < rowSum M i) : ∀ i, 0 < rowSum (absorbMutate M absS) i := by
  intro i
  by_cases hi : i ∈ absS
  · have hone : rowSum (absorbMutate M absS) i = 1 := by
      rw [rowSum]
      have hpt : ∀ j, absorbMutate M absS i j = if j = i then 1 else 0 := by
        intro j
        rw [absorbMutate, if_pos hi]
      rw [Finset.sum_congr rfl (fun j _ => hpt j),
        Finset.sum_ite_eq' Finset.univ i (fun _ => (1 : ℚ))]
      simp
    rw [hone]
    norm_num
  · have hsame : rowSum (absorbMutate M absS) i = rowSum M i := by
      rw [rowSum, rowSum]
      refine Finset.sum_congr rfl fun j _ => ?_
      rw [absorbMutate, if_neg hi]
    rw [hsame]
    exact h1 i

theorem QR_row_split {n : ℕ} (M : TMat n) (absS : Finset (Fin n))
    (p : Fin (transList absS).length)
    (hrow : rowSum (Tabsorb M absS) ((transList absS).get p) = 1) :
    (∑ q, Rmat M absS p q) = 1 - ∑ u, Qmat M absS p u := by
  have hsp := trans_abs_sum_split absS
    (fun j => Tabsorb M absS ((transList absS).get p) j)
  rw [rowSum] at hrow
  have hQ : ∀ u, Qmat M absS p u
      = Tabsorb M absS ((transList absS).get p) ((transList absS).get u) :=
    fun u => rfl
  have hR : ∀ q, Rmat M absS p q
      = Tabsorb M absS ((transList absS).get p) ((absList absS).get q) :=
    fun q => rfl
  rw [Finset.sum_congr rfl (fun q _ => hR q),
    Finset.sum_congr rfl (fun u _ => hQ u)]
  rw [hrow] at hsp
  linarith

theorem identity_row_sum {t : ℕ} (p : Fin t) :
    (∑ u, (1 : Matrix (Fin t) (Fin t) ℚ) p u) = 1 := by
  simp [Matrix.one_apply]

theorem absorption_row_sums {n : ℕ} (M : TMat n) (absS : Finset (Fin n))
    (Nmat : Matrix (Fin (transList absS).length) (Fin (transList absS).length) ℚ)
    (hInv : Nmat * (1 - Qmat M absS) = 1)
    (hrows : ∀ p : Fin (transList absS).length,
      (∑ q, Rmat M absS p q) = 1 - ∑ u, Qmat M absS p u) :
    ∀ p, (∑ q, (Nmat * Rmat M absS) p q) = 1 := by
  intro p
  have hstep : (∑ q, (Nmat * Rmat M absS) p q)
      = ∑ k, Nmat p k * (∑ q, Rmat M absS k q) := by
    simp only [Matrix.mul_apply]
    rw [Finset.sum_comm]
    exact Finset.sum_congr rfl fun k _ => (Finset.mul_sum _ _ _).symm
  have hsubrow : ∀ k, (∑ u, (1 - Qmat M absS) k u) = 1 - ∑ u, Qmat M absS k u := by
    intro k
    simp only [Matrix.sub_apply]
    rw [Finset.sum_sub_distrib, identity_row_sum]
  have hterm : ∀ k, Nmat p k * (∑ q, Rmat M absS k q)
      = ∑ u, Nmat p k * ((1 - Qmat M absS) k u) := by
    intro k
    rw [hrows k, ← hsubrow k, Finset.mul_sum]
  rw [hstep, Finset.sum_congr rfl (fun k _ => hterm k), Finset.sum_comm]
  have hcol : ∀ u, (∑ k, Nmat p k * ((1 - Qmat M absS) k u))
      = (1 : Matrix _ _ ℚ) p u := by
    intro u
    rw [← Matrix.mul_apply, hInv]
  rw [Finset.sum_congr rfl (fun u _ => hcol u)]
  exact identity_row_sum p

/-- C7.  In the waypoint-level branch-probability matrix assembled by
`_differentiation_entropy` — for any row-stochastic nonnegative transition
matrix over the waypoints, any terminal set and any fundamental matrix
satisfying the `numpy.linalg.inv` contract `N * (I - Q) = 1` with
nonnegative exact absorption probabilities — every transient row sums to 1,
every terminal row is the indicator of self-identity, and the entropy
assigned to every terminal row is 0 (for any entropy function on the
transient rows). -/
theorem branch_probability_assembly {n : ℕ} (T : TMat n) (absS : Finset (Fin n))
    (Nmat : Matrix (Fin (transList absS).length) (Fin (transList absS).length) ℚ)
    (h0 : ∀ i j, 0 ≤ T i j) (h1 : ∀ i, rowSum T i = 1)
    (hInv : Nmat * (1 - Qmat (addTerminalSinks T absS) absS) = 1)
    (hNN : ∀ p q, 0 ≤ (Nmat * Rmat (addTerminalSinks T absS) absS) p q) :
    (∀ i, i ∉ absS → (∑ q, branchProbsFinal T absS Nmat i q) = 1) ∧
    (∀ s ∈ absS, ∀ q, branchProbsFinal T absS Nmat s q
        = if (absList absS).get q = s then 1 else 0) ∧
    (∀ H : (Fin (absList absS).length → ℚ) → ℚ, ∀ s ∈ absS,
      entropyFinal T absS Nmat H s = 0) := by
  have hsink := foldl_sink_props (absList absS) T h0
    (fun i => by rw [h1 i]; norm_num)
  have hmutpos := absorbMutate_rowSum_pos (addTerminalSinks T absS) absS hsink.2
  have hTabs1 : ∀ i, rowSum (Tabsorb (addTerminalSinks T absS) absS) i = 1 :=
    fun i => rowSum_normalize _ i (ne_of_gt (hmutpos i))
  have hrows : ∀ p, (∑ q, Rmat (addTerminalSinks T absS) absS p q)
      = 1 - ∑ u, Qmat (addTerminalSinks T absS) absS p u :=
    fun p => QR_row_split _ absS p (hTabs1 _)
  have hNR := absorption_row_sums _ absS Nmat hInv hrows
  refine ⟨?_, ?_, ?_⟩
  · intro i hi
    have hsum : (∑ q, branchProbsFinal T absS Nmat i q)
        = ∑ q, (Nmat * Rmat (addTerminalSinks T absS) absS) (transIdx absS i hi) q := by
      refine Finset.sum_congr rfl fun q _ => ?_
      simp only [branchProbsFinal]
      rw [dif_neg hi]
      exact max_eq_left (hNN _ q)
    rw [hsum, hNR]
  · intro s hs q
    simp only [branchProbsFinal]
    rw [dif_pos hs]
  · intro H s hs
    simp only [entropyFinal]
    rw [if_pos hs]

/-- C7 witness: two waypoints with uniform transitions, waypoint 1 terminal;
`Q = [[1/2]]`, fundamental matrix `[[2]]`, absorption probability 1. -/
theorem branch_probability_assembly_witness :
    ((∀ i j, 0 ≤ absWitnessT i j) ∧ (∀ i, rowSum absWitnessT i = 1) ∧
     absWitnessN * (1 - Qmat (addTerminalSinks absWitnessT absWitnessS)
        absWitnessS) = 1 ∧
     (∀ p q, 0 ≤ (absWitnessN * Rmat (addTerminalSinks absWitnessT absWitnessS)
        absWitnessS) p q)) ∧
    ((∀ i, i ∉ absWitnessS →
        (∑ q, branchProbsFinal absWitnessT absWitnessS absWitnessN i q) = 1) ∧
     (∀ s ∈ absWitnessS, ∀ q, branchProbsFinal absWitnessT absWitnessS absWitnessN s q
        = if (absList absWitnessS).get q = s then 1 else 0) ∧
     (∀ H : (Fin (absList absWitnessS).length → ℚ) → ℚ, ∀ s ∈ absWitnessS,
       entropyFinal absWitnessT absWitnessS absWitnessN H s = 0)) := by
  have h0 : ∀ i j, 0 ≤ absWitnessT i j := by
    intro i j
    fin_cases i <;> fin_cases j <;> norm_num [absWitnessT]
  have h1 : ∀ i, rowSum absWitnessT i = 1 := by
    intro i
    fin_cases i <;> norm_num [rowSum, Fin.sum_univ_two, absWitnessT]
  have hsink : addTerminalSinks absWitnessT absWitnessS = absWitnessT := by
    have habs : absList absWitnessS = [1] := by decide
    rw [addTerminalSinks, habs]
    simp only [List.foldl_cons, List.foldl_nil]
    funext i j
    fin_cases i <;> fin_cases j <;> norm_num [sinkUpdate, absWitnessT]
  have hTabs : Tabsorb absWitnessT absWitnessS = ![![1/2, 1/2], ![0, 1]] := by
    have hmut : absorbMutate absWitnessT absWitnessS = ![![1/2, 1/2], ![0, 1]] := by
      funext i j
      fin_cases i <;> fin_cases j <;>
        norm_num [absorbMutate, absWitnessT, absWitnessS]
    rw [Tabsorb, hmut]
    funext i j
    fin_cases i <;> fin_cases j <;>
      norm_num [normalizeTransitionMatrix, rowSum, Fin.sum_univ_two]
  have hgets : ∀ p : Fin (transList absWitnessS).length,
      (transList absWitnessS).get p = 0 := by
    intro p
    fin_cases p
    rfl
  have hgeta : ∀ q : Fin (absList absWitnessS).length,
      (absList absWitnessS).get q = 1 := by
    intro q
    fin_cases q
    rfl
  have hcard : (Finset.univ : Finset (Fin (transList absWitnessS).length)).card
      = 1 := by decide
  have hQval : ∀ p u, Qmat (addTerminalSinks absWitnessT absWitnessS)
      absWitnessS p u = 1/2 := by
    intro p u
    have hdef : Qmat (addTerminalSinks absWitnessT absWitnessS) absWitnessS p u
        = Tabsorb (addTerminalSinks absWitnessT absWitnessS) absWitnessS
          ((transList absWitnessS).get p) ((transList absWitnessS).get u) := rfl
    rw [hdef, hsink, hgets p, hgets u, hTabs]
    norm_num
  have hRval : ∀ p q, Rmat (addTerminalSinks absWitnessT absWitnessS)
      absWitnessS p q = 1/2 := by
    intro p q
    have hdef : Rmat (addTerminalSinks absWitnessT absWitnessS) absWitnessS p q
        = Tabsorb (addTerminalSinks absWitnessT absWitnessS) absWitnessS
          ((transList absWitnessS).get p) ((absList absWitnessS).get q) := rfl
    rw [hdef, hsink, hgets p, hgeta q, hTabs]
    norm_num
  have hone : ∀ p q : Fin (transList absWitnessS).length,
      (1 : Matrix (Fin (transList absWitnessS).length)
        (Fin (transList absWitnessS).length) ℚ) p q = 1 := by
    intro p q
    fin_cases p
    fin_cases q
    simp [Matrix.one_apply]
  have hInv : absWitnessN * (1 - Qmat (addTerminalSinks absWitnessT absWitnessS)
      absWitnessS) = 1 := by
    ext p q
    rw [Matrix.mul_apply]
    have hterm : ∀ k, absWitnessN p k *
        (1 - Qmat (addTerminalSinks absWitnessT absWitnessS) absWitnessS) k q
          = 1 := by
      intro k
      rw [Matrix.sub_apply, hQval k q, hone k q]
      norm_num [absWitnessN]
    rw [Finset.sum_congr rfl (fun k _ => hterm k), Finset.sum_const, hcard,
      hone p q]
    norm_num
  have hNRval : ∀ p q, (absWitnessN * Rmat (addTerminalSinks absWitnessT
      absWitnessS) absWitnessS) p q = 1 := by
    intro p q
    rw [Matrix.mul_apply]
    have hterm : ∀ k, absWitnessN p k *
        Rmat (addTerminalSinks absWitnessT absWitnessS) absWitnessS k q = 1 := by
      intro k
      rw [hRval k q]
      norm_num [absWitnessN]
    rw [Finset.sum_congr rfl (fun k _ => hterm k), Finset.sum_const, hcard]
    norm_num
  have hNN : ∀ p q, 0 ≤ (absWitnessN * Rmat (addTerminalSinks absWitnessT
      absWitnessS) absWitnessS) p q := by
    intro p q
    rw [hNRval p q]
    norm_num
  exact ⟨⟨h0, h1, hInv, hNN⟩,
    branch_probability_assembly absWitnessT absWitnessS absWitnessN h0 h1 hInv hNN⟩

theorem min_ne_top_iff {a b : WithTop ℚ} : min a b ≠ ⊤ ↔ a ≠ ⊤ ∨ b ≠ ⊤ := by
  rw [ne_eq, min_eq_top]
  tauto

theorem edgeWeight_ne_top_iff {n : ℕ} (adj : TMat n) (i j : Fin n) :
    edgeWeight adj i j ≠ ⊤ ↔ (adj i j ≠ 0 ∨ adj j i ≠ 0) := by
  rw [edgeWeight]
  by_cases h1 : adj i j = 0
  · by_cases h2 : adj j i = 0 <;> simp [h1, h2]
  · by_cases h2 : adj j i = 0 <;> simp [h1, h2]

theorem spDist_self_ne_top {n : ℕ} (adj : TMat n) (s : Fin n) :
    spDist adj s s ≠ ⊤ := by
  have hle : ∀ k, ((relaxStep adj)^[k] (fun j => if j = s then 0 else ⊤)) s
      ≤ (fun j : Fin n => if j = s then (0 : WithTop ℚ) else ⊤) s := by
    intro k
    induction k with
    | zero => exact le_refl _
    | succ k ih =>
      rw [Function.iterate_succ_apply']
      exact le_trans (min_le_left _ _) ih
  intro htop
  rw [spDist] at htop
  have hfin := hle n
  rw [htop] at hfin
  simp only [if_pos rfl] at hfin
  have := top_le_iff.1 hfin
  simp at this

theorem relax_finite_iff {n : ℕ} (adj : TMat n) (s : Fin n) :
    ∀ (k : ℕ) (j : Fin n),
      ((relaxStep adj)^[k] (fun j => if j = s then 0 else ⊤)) j ≠ ⊤
        ↔ j ∈ (bfsStep adj)^[k] {s} := by
  intro k
  induction k with
  | zero =>
    intro j
    by_cases h : j = s <;> simp [h]
  | succ k ih =>
    intro j
    rw [Function.iterate_succ_apply', Function.iterate_succ_apply']
    constructor
    · intro h
      simp only [relaxStep] at h
      rcases min_ne_top_iff.1 h with hd | hinf
      · exact Finset.mem_union_left _ ((ih j).1 hd)
      · have hex : ∃ i, ((relaxStep adj)^[k] (fun j => if j = s then 0 else ⊤)) i
            + edgeWeight adj i j ≠ ⊤ := by
          by_contra hcon
          push_neg at hcon
          exact hinf ((Finset.inf_eq_top_iff _ _).2 fun i _ => hcon i)
        obtain ⟨i, hi⟩ := hex
        rw [ne_eq, WithTop.add_eq_top] at hi
        push_neg at hi
        refine Finset.mem_union_right _ (Finset.mem_filter.2
          ⟨Finset.mem_univ j, ⟨i, (ih i).1 hi.1, hi.2⟩⟩)
    · intro h
      simp only [relaxStep]
      rcases Finset.mem_union.1 h with hd | hnb
      · exact min_ne_top_iff.2 (Or.inl ((ih j).2 hd))
      · obtain ⟨i, hiS, hiw⟩ := (Finset.mem_filter.1 hnb).2
        refine min_ne_top_iff.2 (Or.inr ?_)
        intro htop
        have := (Finset.inf_eq_top_iff _ _).1 htop i (Finset.mem_univ i)
        rw [WithTop.add_eq_top] at this
        rcases this with h' | h'
        · exact (ih i).2 hiS h'
        · exact hiw h'

theorem spDist_finite_iff {n : ℕ} (adj : TMat n) (s : Fin n) (j : Fin n) :
    spDist adj s j ≠ ⊤ ↔ j ∈ (bfsStep adj)^[n] {s} :=
  relax_finite_iff adj s n j

theorem bfsStep_subset_self {n : ℕ} (adj : TMat n) (S : Finset (Fin n)) :
    S ⊆ bfsStep adj S :=
  Finset.subset_union_left

theorem bfsStep_mono {n : ℕ} (adj adj' : TMat n) {S S' : Finset (Fin n)}
    (hS : S ⊆ S')
    (hw : ∀ i j, edgeWeight adj i j ≠ ⊤ → edgeWeight adj' i j ≠ ⊤) :
    bfsStep adj S ⊆ bfsStep adj' S' := by
  intro j hj
  rcases Finset.mem_union.1 hj with h | h
  · exact Finset.mem_union_left _ (hS h)
  · obtain ⟨i, hiS, hiw⟩ := (Finset.mem_filter.1 h).2
    exact Finset.mem_union_right _ (Finset.mem_filter.2
      ⟨Finset.mem_univ j, ⟨i, hS hiS, hw i j hiw⟩⟩)

theorem bfs_iterate_mono {n : ℕ} (adj adj' : TMat n) (s : Fin n)
    (hw : ∀ i j, edgeWeight adj i j ≠ ⊤ → edgeWeight adj' i j ≠ ⊤) :
    ∀ k, (bfsStep adj)^[k] {s} ⊆ (bfsStep adj')^[k] {s} := by
  intro k
  induction k with
  | zero => exact fun x hx => hx
  | succ k ih =>
    rw [Function.iterate_succ_apply', Function.iterate_succ_apply']
    exact bfsStep_mono adj adj' ih hw

theorem bfs_iterate_grow {n : ℕ} (adj : TMat n) (s : Fin n) :
    ∀ k, (bfsStep adj)^[k] {s} ⊆ (bfsStep adj)^[k + 1] {s} := by
  intro k
  induction k with
  | zero =>
    simpa using bfsStep_subset_self adj {s}
  | succ k ih =>
    rw [Function.iterate_succ_apply', Function.iterate_succ_apply']
    exact bfsStep_mono adj adj ih (fun i j h => h)

theorem bfs_saturated {n : ℕ} (adj : TMat n) (s : Fin n) :
    (bfsStep adj)^[n] {s} = (bfsStep adj)^[n - 1] {s} ∧
    bfsStep adj ((bfsStep adj)^[n] {s}) = (bfsStep adj)^[n] {s} := by
  have hn1 : 1 ≤ n := s.pos
  have hcard : ∀ k, (∀ j, j < k →
      (bfsStep adj)^[j + 1] {s} ≠ (bfsStep adj)^[j] {s}) →
      k + 1 ≤ ((bfsStep adj)^[k] {s}).card := by
    intro k
    induction k with
    | zero =>
      intro _
      simp
    | succ k ih =>
      intro hne
      have h1 := ih (fun j hj => hne j (by omega))
      have hss : (bfsStep adj)^[k] {s} ⊂ (bfsStep adj)^[k + 1] {s} :=
        HasSubset.Subset.ssubset_of_ne (bfs_iterate_grow adj s k)
          (Ne.symm (hne k (by omega)))
      have h2 := Finset.card_lt_card hss
      omega
  have hexists : ∃ j, j < n ∧
      (bfsStep adj)^[j + 1] {s} = (bfsStep adj)^[j] {s} := by
    by_contra hcon
    push_neg at hcon
    have h1 := hcard n (fun j hj => hcon j hj)
    have h2 : ((bfsStep adj)^[n] {s}).card ≤ n := by
      calc ((bfsStep adj)^[n] {s}).card
          ≤ (Finset.univ : Finset (Fin n)).card :=
            Finset.card_le_card (Finset.subset_univ _)
        _ = n := by simp
    omega
  obtain ⟨j, hj, hfix⟩ := hexists
  have hafter : ∀ m, j ≤ m → (bfsStep adj)^[m] {s} = (bfsStep adj)^[j] {s} := by
    intro m
    induction m with
    | zero =>
      intro hm
      have hj0 : j = 0 := by omega
      rw [hj0]
    | succ m ih =>
      intro hm
      rcases Nat.lt_or_ge j (m + 1) with h | h
      · have hjm : j ≤ m := by omega
        rw [Function.iterate_succ_apply', ih hjm]
        calc bfsStep adj ((bfsStep adj)^[j] {s})
            = (bfsStep adj)^[j + 1] {s} := (Function.iterate_succ_apply' _ _ _).symm
          _ = (bfsStep adj)^[j] {s} := hfix
      · have : j = m + 1 := by omega
        rw [this]
  constructor
  · rw [hafter n (by omega), hafter (n - 1) (by omega)]
  · rw [hafter n (by omega)]
    calc bfsStep adj ((bfsStep adj)^[j] {s})
        = (bfsStep adj)^[j + 1] {s} := (Function.iterate_succ_apply' _ _ _).symm
      _ = (bfsStep adj)^[j] {s} := hfix

theorem argmaxList_from_some {n : ℕ} {β : Type} [LinearOrder β] (f : Fin n → β) :
    ∀ (l : List (Fin n)) (b : Fin n), ∃ r, l.foldl (fun acc x => match acc with
      | none => some x
      | some b => if f b < f x then some x else acc) (some b) = some r ∧
      (r = b ∨ r ∈ l) := by
  intro l
  induction l with
  | nil => exact fun b => ⟨b, rfl, Or.inl rfl⟩
  | cons x xs ih =>
    intro b
    simp only [List.foldl_cons]
    by_cases h : f b < f x
    · obtain ⟨r, hr, hmem⟩ := ih x
      refine ⟨r, by simpa [h] using hr, ?_⟩
      rcases hmem with h' | h'
      · exact Or.inr (h' ▸ List.mem_cons_self x xs)
      · exact Or.inr (List.mem_cons_of_mem x h')
    · obtain ⟨r, hr, hmem⟩ := ih b
      refine ⟨r, by simpa [h] using hr, ?_⟩
      rcases hmem with h' | h'
      · exact Or.inl h'
      · exact Or.inr (List.mem_cons_of_mem x h')

theorem argmaxList_some_mem {n : ℕ} {β : Type} [LinearOrder β] (f : Fin n → β)
    (l : List (Fin n)) (hne : l ≠ []) :
    ∃ r, argmaxList f l = some r ∧ r ∈ l := by
  cases l with
  | nil => exact absurd rfl hne
  | cons x xs =>
    rw [argmaxList]
    simp only [List.foldl_cons]
    obtain ⟨r, hr, hmem⟩ := argmaxList_from_some f xs x
    refine ⟨r, hr, ?_⟩
    rcases hmem with h | h
    · exact h ▸ List.mem_cons_self x xs
    · exact List.mem_cons_of_mem x h

theorem argminList_from_some {n : ℕ} {β : Type} [LinearOrder β] (f : Fin n → β) :
    ∀ (l : List (Fin n)) (b : Fin n), ∃ r, l.foldl (fun acc x => match acc with
      | none => some x
      | some b => if f x < f b then some x else acc) (some b) = some r ∧
      (r = b ∨ r ∈ l) := by
  intro l
  induction l with
  | nil => exact fun b => ⟨b, rfl, Or.inl rfl⟩
  | cons x xs ih =>
    intro b
    simp only [List.foldl_cons]
    by_cases h : f x < f b
    · obtain ⟨r, hr, hmem⟩ := ih x
      refine ⟨r, by simpa [h] using hr, ?_⟩
      rcases hmem with h' | h'
      · exact Or.inr (h' ▸ List.mem_cons_self x xs)
      · exact Or.inr (List.mem_cons_of_mem x h')
    · obtain ⟨r, hr, hmem⟩ := ih b
      refine ⟨r, by simpa [h] using hr, ?_⟩
      rcases hmem with h' | h'
      · exact Or.inl h'
      · exact Or.inr (List.mem_cons_of_mem x h')

theorem argminList_some_mem {n : ℕ} {β : Type} [LinearOrder β] (f : Fin n → β)
    (l : List (Fin n)) (hne : l ≠ []) :
    ∃ r, argminList f l = some r ∧ r ∈ l := by
  cases l with
  | nil => exact absurd rfl hne
  | cons x xs =>
    rw [argminList]
    simp only [List.foldl_cons]
    obtain ⟨r, hr, hmem⟩ := argminList_from_some f xs x
    refine ⟨r, hr, ?_⟩
    rcases hmem with h | h
    · exact h ▸ List.mem_cons_self x xs
    · exact List.mem_cons_of_mem x h

theorem mem_reachList_iff {n : ℕ} (adj : TMat n) (s j : Fin n) :
    j ∈ reachList adj s ↔ spDist adj s j ≠ ⊤ := by
  rw [reachList, List.mem_filter]
  simp

theorem mem_unreachList_iff {n : ℕ} (adj : TMat n) (s j : Fin n) :
    j ∈ unreachList adj s ↔ spDist adj s j = ⊤ := by
  rw [unreachList, List.mem_filter]
  simp

theorem mem_unreachSet_iff {n : ℕ} (adj : TMat n) (s j : Fin n) :
    j ∈ unreachSet adj s ↔ spDist adj s j = ⊤ := by
  rw [unreachSet, Finset.mem_filter]
  simp

theorem connect_round {n : ℕ} (adj : TMat n) (dist : Fin n → Fin n → ℚ)
    (s : Fin n) (hdist : ∀ i j, i ≠ j → 0 < dist i j)
    (hne : unreachSet adj s ≠ ∅) :
    ∃ far near,
      argmaxList (spDist adj s) (reachList adj s) = some far ∧
      argminList (dist far) (unreachList adj s) = some near ∧
      unreachSet (updateAdj adj far near (dist far near)) s
        ⊂ unreachSet adj s := by
  have hsreach : s ∈ reachList adj s :=
    (mem_reachList_iff adj s s).2 (spDist_self_ne_top adj s)
  obtain ⟨far, hfar, hfarmem⟩ :=
    argmaxList_some_mem (spDist adj s) (reachList adj s)
      (List.ne_nil_of_mem hsreach)
  have hfarfin : spDist adj s far ≠ ⊤ := (mem_reachList_iff adj s far).1 hfarmem
  obtain ⟨u0, hu0⟩ := Finset.nonempty_iff_ne_empty.2 hne
  have hu0' : u0 ∈ unreachList adj s :=
    (mem_unreachList_iff adj s u0).2 ((mem_unreachSet_iff adj s u0).1 hu0)
  obtain ⟨near, hnear, hnearmem⟩ :=
    argminList_some_mem (dist far) (unreachList adj s)
      (List.ne_nil_of_mem hu0')
  have hneartop : spDist adj s near = ⊤ :=
    (mem_unreachList_iff adj s near).1 hnearmem
  refine ⟨far, near, hfar, hnear, ?_⟩
  have hsat := bfs_saturated adj s
  have hfarB : far ∈ (bfsStep adj)^[n] {s} :=
    (spDist_finite_iff adj s far).1 hfarfin
  have hnearB : near ∉ (bfsStep adj)^[n] {s} := by
    intro hmem
    exact ((spDist_finite_iff adj s near).2 hmem) hneartop
  have hWtop : edgeWeight adj far near = ⊤ := by
    by_contra hW
    apply hnearB
    rw [← hsat.2]
    exact Finset.mem_union_right _ (Finset.mem_filter.2
      ⟨Finset.mem_univ near, ⟨far, hfarB, hW⟩⟩)
  have hfn : far ≠ near := by
    intro h
    rw [h] at hfarfin
    exact hfarfin hneartop
  have hz : adj far near = 0 ∧ adj near far = 0 := by
    by_contra hcon
    rw [not_and_or] at hcon
    push_neg at hcon
    exact (edgeWeight_ne_top_iff adj far near).2 hcon hWtop
  have hmono : ∀ i j, edgeWeight adj i j ≠ ⊤ →
      edgeWeight (updateAdj adj far near (dist far near)) i j ≠ ⊤ := by
    intro i j hij
    rw [edgeWeight_ne_top_iff] at hij ⊢
    rcases hij with h | h
    · left
      by_cases hcase : i = far ∧ j = near
      · obtain ⟨rfl, rfl⟩ := hcase
        exact absurd hz.1 h
      · rw [updateAdj, if_neg hcase]
        exact h
    · right
      by_cases hcase : j = far ∧ i = near
      · obtain ⟨rfl, rfl⟩ := hcase
        exact absurd hz.1 h
      · rw [updateAdj, if_neg hcase]
        exact h
  have hsubset : unreachSet (updateAdj adj far near (dist far near)) s
      ⊆ unreachSet adj s := by
    intro j hj
    rw [mem_unreachSet_iff] at hj ⊢
    by_contra hfin
    have h1 : j ∈ (bfsStep adj)^[n] {s} := (spDist_finite_iff adj s j).1 hfin
    have h2 := bfs_iterate_mono adj _ s hmono n h1
    exact (spDist_finite_iff _ s j).2 h2 hj
  have hn1 : 1 ≤ n := s.pos
  obtain ⟨m, rfl⟩ : ∃ m, n = m + 1 := ⟨n - 1, by omega⟩
  have hnear_new : near ∈
      (bfsStep (updateAdj adj far near (dist far near)))^[m + 1] {s} := by
    have hfarB1 : far ∈ (bfsStep adj)^[m] {s} := by
      have hs1 := hsat.1
      simp only [Nat.add_sub_cancel] at hs1
      rw [← hs1]
      exact hfarB
    have hfarB1' : far ∈
        (bfsStep (updateAdj adj far near (dist far near)))^[m] {s} :=
      bfs_iterate_mono adj _ s hmono m hfarB1
    have hWnew : edgeWeight (updateAdj adj far near (dist far near))
        far near ≠ ⊤ := by
      rw [edgeWeight_ne_top_iff]
      left
      rw [updateAdj, if_pos ⟨rfl, rfl⟩]
      exact ne_of_gt (hdist far near hfn)
    have hstep : near ∈ bfsStep (updateAdj adj far near (dist far near))
        ((bfsStep (updateAdj adj far near (dist far near)))^[m] {s}) :=
      Finset.mem_union_right _ (Finset.mem_filter.2
        ⟨Finset.mem_univ near, ⟨far, hfarB1', hWnew⟩⟩)
    rw [Function.iterate_succ_apply']
    exact hstep
  refine (Finset.ssubset_iff_of_subset hsubset).2 ⟨near,
    (mem_unreachSet_iff adj s near).2 hneartop, ?_⟩
  intro hmem
  exact ((spDist_finite_iff _ s near).2 hnear_new)
    ((mem_unreachSet_iff _ s near).1 hmem)

theorem connectLoop_reaches {n : ℕ} (dist : Fin n → Fin n → ℚ) (s : Fin n)
    (hdist : ∀ i j, i ≠ j → 0 < dist i j) :
    ∀ (fuel : ℕ) (adj : TMat n), (unreachSet adj s).card ≤ fuel →
      unreachSet (connectLoop dist s fuel adj) s = ∅ := by
  intro fuel
  induction fuel with
  | zero =>
    intro adj hcard
    rw [connectLoop]
    exact Finset.card_eq_zero.1 (le_antisymm hcard (Nat.zero_le _))
  | succ f ih =>
    intro adj hcard
    rw [connectLoop]
    by_cases hemp : unreachSet adj s = ∅
    · rw [if_pos hemp]
      exact hemp
    · rw [if_neg hemp]
      obtain ⟨far, near, hfar, hnear, hss⟩ := connect_round adj dist s hdist hemp
      simp only [hfar, hnear]
      apply ih
      have := Finset.card_lt_card hss
      omega

/-- C4.  For every kNN adjacency matrix, embedding (abstracted by its
pairwise Euclidean distance matrix, positive between distinct rows) and
start node, the connectivity repair of `_connect_graph` terminates within
its fuel and returns an adjacency in which the undirected dijkstra distance
from the start node to every node is finite — every node is reachable from
the start. -/
theorem connect_graph_reaches_all {n : ℕ} (adj : TMat n)
    (dist : Fin n → Fin n → ℚ) (s : Fin n)
    (hdist : ∀ i j, i ≠ j → 0 < dist i j) :
    ∀ j, spDist (connectGraph adj dist s) s j ≠ ⊤ := by
  have hcard : (unreachSet adj s).card ≤ n := by
    calc (unreachSet adj s).card
        ≤ (Finset.univ : Finset (Fin n)).card :=
          Finset.card_le_card (Finset.subset_univ _)
      _ = n := by simp
  have hempty := connectLoop_reaches dist s hdist n adj hcard
  intro j hj
  have hmem : j ∈ unreachSet (connectGraph adj dist s) s :=
    (mem_unreachSet_iff _ s j).2 hj
  rw [connectGraph, hempty] at hmem
  exact absurd hmem (Finset.not_mem_empty j)

/-- C4 witness: two isolated nodes with unit embedding distances, start
node 0. -/
theorem connect_graph_reaches_all_witness :
    (∀ i j : Fin 2, i ≠ j → 0 < graphWitnessDist i j) ∧
    (∀ j, spDist (connectGraph graphWitnessAdj graphWitnessDist 0) 0 j ≠ ⊤) := by
  have hdist : ∀ i j : Fin 2, i ≠ j → 0 < graphWitnessDist i j := by
    intro i j _
    norm_num [graphWitnessDist]
  exact ⟨hdist,
    connect_graph_reaches_all graphWitnessAdj graphWitnessDist 0 hdist⟩

end Palantir
